import Mathlib

/-!
Verification of the nube-sync repository's core logic: manifest handling,
version reconciliation, local deletion, fetch/apply, retry policy and the
one-pass orchestration.  Rust `HashMap`s are modelled as association lists
with unique keys; filesystem and network effects are modelled by explicit
state passing and environment records; Rust panics are modelled as a
distinguished error value (or `none` where the whole computation aborts).
-/

set_option maxHeartbeats 1000000

namespace NubeSync

universe u v

variable {α : Type u}

instance {E : Type u} {T : Type v} [DecidableEq E] [DecidableEq T] :
    DecidableEq (Except E T) := fun a b =>
  match a, b with
  | .ok x, .ok y =>
    if h : x = y then .isTrue (by rw [h])
    else .isFalse (by intro hc; cases hc; exact h rfl)
  | .ok _, .error _ => .isFalse (by intro hc; cases hc)
  | .error _, .ok _ => .isFalse (by intro hc; cases hc)
  | .error x, .error y =>
    if h : x = y then .isTrue (by rw [h])
    else .isFalse (by intro hc; cases hc; exact h rfl)

/-- Remote reference string (join key between listing and manifest). -/
abbrev Href := String

/-- Filesystem path, as a list of components (models `PathBuf`). -/
abbrev FsPath := List String

/-- `HashMap::get` on an association list: first entry with the key. -/
def lookupA (k : Href) : List (Href × α) → Option α
  | [] => none
  | (k', v) :: rest => if k' = k then some v else lookupA k rest

/-- `HashMap::insert`: replace the value at `k` in place, or append. -/
def insertA (k : Href) (v : α) : List (Href × α) → List (Href × α)
  | [] => [(k, v)]
  | (k', v') :: rest => if k' = k then (k, v) :: rest else (k', v') :: insertA k v rest

/-- `HashMap::remove`: drop the entry at `k` (the first one, if any). -/
def removeA (k : Href) : List (Href × α) → List (Href × α)
  | [] => []
  | (k', v') :: rest => if k' = k then rest else (k', v') :: removeA k rest

/-- The keys of an association list. -/
def keysA (l : List (Href × α)) : List Href := l.map Prod.fst

/-- `HashMap` key uniqueness invariant. -/
def NodupKeys (l : List (Href × α)) : Prop := (l.map Prod.fst).Nodup

instance (l : List (Href × α)) : Decidable (NodupKeys l) := by
  unfold NodupKeys
  infer_instance

/-! ## Data model (src/versions.rs) -/

/-- `reqwest_dav::list_cmd::ListFile` (only the fields the core reads);
the `DateTime<Utc>` timestamp is modelled as a `Nat`. -/
structure ListFile where
  href : Href
  last_modified : Nat
  deriving DecidableEq, Repr

/-- `reqwest_dav::list_cmd::ListFolder` (only the field the core reads). -/
structure ListFolder where
  href : Href
  deriving DecidableEq, Repr

/-- `reqwest_dav::list_cmd::ListEntity`. -/
inductive ListEntity where
  | File (f : ListFile)
  | Folder (f : ListFolder)
  deriving DecidableEq, Repr

/-- The href of an entity (the `match` repeated at several call sites). -/
def ListEntity.href : ListEntity → Href
  | .File f => f.href
  | .Folder f => f.href

/-- `versions::LocalFile`. -/
structure LocalFile where
  path : FsPath
  is_dir : Bool
  last_modified : Option Nat
  deriving DecidableEq, Repr

/-- `versions::LocalVersion.files`: the manifest, a `HashMap<Href, LocalFile>`
modelled as an association list with unique keys. -/
abbrev Manifest := List (Href × LocalFile)

/-- `versions::Status`. -/
inductive Status where
  | Local
  | Server
  | OutOfDate
  | Sync
  deriving DecidableEq, Repr

/-- `ServerVersion::from_entities`: builds the href-indexed map of the
listing (`HashMap::insert` per entity; a later duplicate href wins). -/
def ServerVersion.from_entities (server_files : List ListEntity) :
    List (Href × ListEntity) :=
  server_files.foldl (fun files f => insertA f.href f files) []

/-- One iteration of the server loop in `Version::new`.  `none` models a
panic: the `localv.files[*href]` index or the `.last_modified.unwrap()` on a
manifest entry without a timestamp. -/
def stepServer (localv : Manifest) (paths : List (Href × Status))
    (entry : Href × ListEntity) : Option (List (Href × Status)) :=
  match lookupA entry.1 paths with
  | some _ =>
    match entry.2 with
    | .File file =>
      match lookupA entry.1 localv with
      | none => none
      | some lf =>
        match lf.last_modified with
        | none => none
        | some t =>
          if file.last_modified ≠ t then some (insertA entry.1 Status.OutOfDate paths)
          else some (insertA entry.1 Status.Sync paths)
    | .Folder _ => some (insertA entry.1 Status.Sync paths)
  | none => some (insertA entry.1 Status.Server paths)

/-- The `for (href, server_file) in &server.files` loop of `Version::new`,
iterating `stepServer` and propagating a panic. -/
def serverLoop (localv : Manifest) (paths : List (Href × Status)) :
    List (Href × ListEntity) → Option (List (Href × Status))
  | [] => some paths
  | entry :: rest =>
    match stepServer localv paths entry with
    | none => none
    | some paths' => serverLoop localv paths' rest

/-- The seeding loop of `Version::new`: every manifest href starts `Local`. -/
def seedStatuses (localv : Manifest) : List (Href × Status) :=
  localv.map (fun p => (p.1, Status.Local))

/-- `Version::new`: seed every manifest href as `Local`, then walk the
server map.  `none` models the panic on a timestamp-less manifest entry. -/
def Version.new (server : List (Href × ListEntity)) (localv : Manifest) :
    Option (List (Href × Status)) :=
  serverLoop localv (seedStatuses localv) server

/-- `Version::files_to_remove`: all hrefs with status `Local`. -/
def files_to_remove (v : List (Href × Status)) : List Href :=
  (v.filter (fun p => p.2 = Status.Local)).map Prod.fst

/-- `Version::files_to_download`: all hrefs whose status is not `Sync`. -/
def files_to_download (v : List (Href × Status)) : List Href :=
  (v.filter (fun p => p.2 ≠ Status.Sync)).map Prod.fst

/-- `VersionService::init`: reconcile a listing against the manifest. -/
def reconcile (entities : List ListEntity) (localv : Manifest) :
    Option (List (Href × Status)) :=
  Version.new (ServerVersion.from_entities entities) localv

/-- `VersionService::entities_to_download`: filter the original entity list
to the hrefs contained in `files_to_download`. -/
def entities_to_download (entities : List ListEntity)
    (v : List (Href × Status)) : List ListEntity :=
  entities.filter (fun entity => (files_to_download v).contains entity.href)

/-! ## Characterization of the reconciler -/

/-- The status the server loop assigns to a server-map entry `(h, e)`;
`none` marks the timestamp-unwrap panic. -/
def entryStatus (localv : Manifest) (h : Href) (e : ListEntity) : Option Status :=
  match lookupA h localv with
  | none => some Status.Server
  | some lf =>
    match e with
    | .Folder _ => some Status.Sync
    | .File f =>
      match lf.last_modified with
      | none => none
      | some t =>
        some (if f.last_modified ≠ t then Status.OutOfDate else Status.Sync)

/-! ## Errors, filesystem model and deletion (src/sync_service.rs, src/main.rs) -/

/-- The failures a pass can surface (`AppResult` errors plus the
distinguished `crash` value standing for a Rust panic such as a failed
`unwrap` or an out-of-range slice). -/
inductive AppErr where
  | notFound
  | deser
  | urlParse
  | crash
  | external (code : Nat)
  deriving DecidableEq, Repr

/-- Deterministic filesystem model: which paths are directories and which
are files.  Its only failure mode is absence of the operated-on path. -/
structure FS where
  dirs : List FsPath
  files : List FsPath
  deriving DecidableEq, Repr

/-- `std::fs::remove_dir_all`: removes the whole subtree rooted at `p`;
errors when `p` is not a directory. -/
def removeDirAll (fs : FS) (p : FsPath) : Except AppErr FS :=
  if p ∈ fs.dirs then
    .ok ⟨fs.dirs.filter (fun q => !(List.isPrefixOf p q)),
         fs.files.filter (fun q => !(List.isPrefixOf p q))⟩
  else .error .notFound

/-- `std::fs::remove_file`: removes the file at `p`; errors when absent. -/
def removeFile (fs : FS) (p : FsPath) : Except AppErr FS :=
  if p ∈ fs.files then
    .ok ⟨fs.dirs, fs.files.filter (fun q => q ≠ p)⟩
  else .error .notFound

/-- State and event log of `SyncService::delete_locals`
(src/sync_service.rs): the filesystem, the mutated manifest, the
`folders_to_delete` vector, and logs of the filesystem deletes performed. -/
structure DelOut where
  fs : FS
  manifest : Manifest
  folders_to_delete : List FsPath
  removedFiles : List FsPath
  removedDirs : List FsPath
  err : Option AppErr
  deriving DecidableEq, Repr

/-- `SyncService::delete_locals` (current variant, src/sync_service.rs):
pop each href from the manifest (`unwrap` panic when absent, modelled as
`err = crash`); a directory is pushed onto `folders_to_delete` and removed
recursively; a path that is still a file is removed; anything else is
skipped on the filesystem while the manifest entry stays dropped. -/
def delete_locals (fs : FS) (m : Manifest) : List Href → DelOut
  | [] => ⟨fs, m, [], [], [], none⟩
  | href :: rest =>
    match lookupA href m with
    | none => ⟨fs, m, [], [], [], some .crash⟩
    | some file =>
      let m' := removeA href m
      if file.path ∈ fs.dirs then
        match removeDirAll fs file.path with
        | .error er => ⟨fs, m', [file.path], [], [], some er⟩
        | .ok fs' =>
          let r := delete_locals fs' m' rest
          ⟨r.fs, r.manifest, file.path :: r.folders_to_delete,
            r.removedFiles, file.path :: r.removedDirs, r.err⟩
      else if file.path ∈ fs.files then
        match removeFile fs file.path with
        | .error er => ⟨fs, m', [], [], [], some er⟩
        | .ok fs' =>
          let r := delete_locals fs' m' rest
          ⟨r.fs, r.manifest, r.folders_to_delete,
            file.path :: r.removedFiles, r.removedDirs, r.err⟩
      else
        delete_locals fs m' rest

/-- The historical manifest of src/main.rs: href → `PathBuf` only. -/
abbrev MainManifest := List (Href × FsPath)

/-- State and event log of the historical `SyncService::delete_locals`
(src/main.rs, with the labelled `continue 'hrefs` prefix test). -/
structure HDelOut where
  fs : FS
  manifest : MainManifest
  folders_to_delete : List FsPath
  removedFiles : List FsPath
  removedDirs : List FsPath
  err : Option AppErr
  deriving DecidableEq, Repr

/-- Historical `SyncService::delete_locals` (src/main.rs 240-266): the
`folders_to_delete` accumulator is consulted — a file whose path starts
with an already-deleted directory root is skipped (`continue 'hrefs`)
while its manifest entry stays dropped. -/
def delete_locals_hist (fs : FS) (m : MainManifest) (folders : List FsPath) :
    List Href → HDelOut
  | [] => ⟨fs, m, folders, [], [], none⟩
  | href :: rest =>
    match lookupA href m with
    | none => ⟨fs, m, folders, [], [], some .crash⟩
    | some path =>
      let m' := removeA href m
      if path ∈ fs.dirs then
        match removeDirAll fs path with
        | .error er => ⟨fs, m', folders ++ [path], [], [], some er⟩
        | .ok fs' =>
          let r := delete_locals_hist fs' m' (folders ++ [path]) rest
          ⟨r.fs, r.manifest, r.folders_to_delete,
            r.removedFiles, path :: r.removedDirs, r.err⟩
      else if path ∈ fs.files then
        if folders.any (fun d => List.isPrefixOf d path) then
          delete_locals_hist fs m' folders rest
        else
          match removeFile fs path with
          | .error er => ⟨fs, m', folders, [], [], some er⟩
          | .ok fs' =>
            let r := delete_locals_hist fs' m' folders rest
            ⟨r.fs, r.manifest, r.folders_to_delete,
              path :: r.removedFiles, r.removedDirs, r.err⟩
      else
        delete_locals_hist fs m' folders rest

/-! ## Bounded retry (src/conn_retry.rs) -/

/-- `ConnRetry`: retry count and fixed inter-attempt delay (ms). -/
structure ConnRetry where
  tries : Nat
  delay : Nat
  deriving DecidableEq, Repr

/-- `ConnRetry::default()` (the `DEFAULT_CONN_RETRY` singleton). -/
def ConnRetry.default : ConnRetry := ⟨3, 250⟩

/-- The retry loop of `ConnRetry::execute_with_retries`: `f n` is the
outcome of the `n`-th invocation of the wrapped operation; the second
component logs the `sleep` durations performed between attempts.
(`tries = 0` would underflow the `usize` decrement in Rust; the loop is
only entered with the positive configured count.) -/
def ConnRetry.run (c : ConnRetry) (f : Nat → Except E T) :
    Nat → Nat → Except E T × List Nat
  | attempt, 0 =>
    match f attempt with
    | .ok r => (.ok r, [])
    | .error e => (.error e, [])
  | attempt, fuel + 1 =>
    match f attempt with
    | .ok r => (.ok r, [])
    | .error e =>
      if fuel = 0 then (.error e, [])
      else
        let r := ConnRetry.run c f (attempt + 1) fuel
        (r.1, c.delay :: r.2)

/-- `ConnRetry::execute_with_retries`. -/
def ConnRetry.execute_with_retries (c : ConnRetry) (f : Nat → Except E T) :
    Except E T × List Nat :=
  ConnRetry.run c f 0 c.tries

/-! ## Percent-decoding and the blacklist (src/sync_service.rs) -/

def hexVal (c : Char) : Option Nat :=
  if '0' ≤ c ∧ c ≤ '9' then some (c.toNat - '0'.toNat)
  else if 'a' ≤ c ∧ c ≤ 'f' then some (c.toNat - 'a'.toNat + 10)
  else if 'A' ≤ c ∧ c ≤ 'F' then some (c.toNat - 'A'.toNat + 10)
  else none

/-- `urlencoding::decode` at byte level (characters stand for bytes, so
the crate's final UTF-8 re-validation is the identity here): `%XY` with
two hex digits becomes the byte `16*X+Y`, any other `%` passes through. -/
def percentDecode : List Char → List Char
  | '%' :: a :: b :: rest =>
    match hexVal a, hexVal b with
    | some ha, some hb => Char.ofNat (16 * ha + hb) :: percentDecode rest
    | _, _ => '%' :: percentDecode (a :: b :: rest)
  | c :: rest => c :: percentDecode rest
  | [] => []

def decodeStr (s : String) : String := String.mk (percentDecode s.data)

/-- `str::contains` (substring containment) on character lists. -/
def containsSeq (needle : List Char) : List Char → Bool
  | [] => needle.isEmpty
  | c :: rest => List.isPrefixOf needle (c :: rest) || containsSeq needle rest

/-- `SyncService::is_in_black_list`: membership of the decoded href in the
configured list, then substring containment of any configured fragment. -/
def is_in_black_list (black_list : List String) (href : Href) : Bool :=
  let decoded := decodeStr href
  black_list.contains decoded ||
    black_list.any (fun excluded => containsSeq excluded.data decoded.data)

/-! ## Fetch/apply (src/sync_service.rs) -/

/-- The configuration fields the sync engine reads (src/config.rs):
`host` is the `Display` rendering of the configured base `Url` and
`hostPath` its `.path()`. -/
structure Config where
  host : String
  hostPath : String
  out_dir : FsPath
  black_list : List String

/-- Outcomes of the external collaborators (url crate, WebDAV client,
filesystem writes, manifest persistence), supplied as an environment;
attempt-indexed functions feed the retry wrapper. -/
structure Env where
  parseUrlPath : String → Option String
  listAttempt : Nat → Except AppErr (List ListEntity)
  fetchAttempt : String → Nat → Except AppErr Unit
  writeFile : FsPath → Except AppErr Unit
  mkdir : FsPath → Except AppErr Unit
  save : Manifest → Except AppErr Unit

/-- Rust byte slice `&s[n..]`; the panic on an out-of-range start index is
modelled as `none`. -/
def sliceFrom (s : String) (n : Nat) : Option String :=
  if n ≤ s.length then some (String.mk (s.data.drop n)) else none

/-- `PathBuf::join` with a decoded relative string, components split on
the separator. -/
def joinPath (base : FsPath) (rel : String) : FsPath := base ++ rel.splitOn "/"

/-- `DavPaths` (src/sync_service.rs); `localp` is the Rust field `local`. -/
structure DavPaths where
  remote : FsPath
  localp : FsPath
  deriving DecidableEq, Repr

/-- `SyncService::define_paths`. -/
def define_paths (env : Env) (cfg : Config) (remote_dir : String)
    (file_href : Href) : Except AppErr DavPaths :=
  match env.parseUrlPath (cfg.host ++ remote_dir) with
  | none => .error .urlParse
  | some url_path =>
    match sliceFrom file_href url_path.length with
    | none => .error .crash
    | some remote_path_str =>
      let remote_path := (decodeStr remote_path_str).splitOn "/"
      .ok ⟨remote_path, cfg.out_dir ++ remote_path⟩

/-- `SyncService::download_file`: slice the download URI off the href,
fetch through the retry wrapper, compute paths, create and write the
local file, then upsert the manifest entry with the remote timestamp.
The boolean records whether the network fetch was executed. -/
def download_file (env : Env) (cfg : Config) (file : ListFile)
    (remote_dir : String) (m : Manifest) : Except AppErr Manifest × Bool :=
  match sliceFrom file.href cfg.hostPath.length with
  | none => (.error .crash, false)
  | some download_uri =>
    match (ConnRetry.default.execute_with_retries (env.fetchAttempt download_uri)).1 with
    | .error e => (.error e, true)
    | .ok _ =>
      match define_paths env cfg remote_dir file.href with
      | .error e => (.error e, true)
      | .ok paths =>
        match env.writeFile paths.localp with
        | .error e => (.error e, true)
        | .ok _ =>
          (.ok (insertA file.href ⟨paths.localp, false, some file.last_modified⟩ m),
            true)

/-- `SyncService::create_dir`: parse the base URL, strip its path prefix
off the folder href; the listing root (empty relative path) is a no-op
without a manifest entry; otherwise create the directory and upsert the
manifest entry without a timestamp.  The second component is the created
path, when one was created. -/
def create_dir (env : Env) (cfg : Config) (folder : ListFolder)
    (remote_dir : String) (m : Manifest) :
    Except AppErr (Manifest × Option FsPath) :=
  match env.parseUrlPath (cfg.host ++ remote_dir) with
  | none => .error .urlParse
  | some url_path =>
    match sliceFrom folder.href url_path.length with
    | none => .error .crash
    | some remote_dir_path =>
      if remote_dir_path = "" then .ok (m, none)
      else
        let path := joinPath cfg.out_dir (decodeStr remote_dir_path)
        match env.mkdir path with
        | .error e => .error e
        | .ok _ => .ok (insertA folder.href ⟨path, true, none⟩ m, some path)

/-- State and event log of `SyncService::apply_sync`. -/
structure ApplyOut where
  manifest : Manifest
  downloads : List Href
  mkdirs : List FsPath
  err : Option AppErr

/-- `SyncService::apply_sync`: walk the entity list in listing order, skip
blacklisted hrefs before any filesystem or network action, download files
and create directories, abort on the first error (keeping the manifest
mutations already applied). -/
def apply_sync (env : Env) (cfg : Config) (remote_dir : String)
    (m : Manifest) : List ListEntity → ApplyOut
  | [] => ⟨m, [], [], none⟩
  | .File file :: rest =>
    if is_in_black_list cfg.black_list file.href then
      apply_sync env cfg remote_dir m rest
    else
      match download_file env cfg file remote_dir m with
      | (.error e, fetched) =>
        ⟨m, if fetched then [file.href] else [], [], some e⟩
      | (.ok m', fetched) =>
        let r := apply_sync env cfg remote_dir m' rest
        ⟨r.manifest, (if fetched then [file.href] else []) ++ r.downloads,
          r.mkdirs, r.err⟩
  | .Folder folder :: rest =>
    if is_in_black_list cfg.black_list folder.href then
      apply_sync env cfg remote_dir m rest
    else
      match create_dir env cfg folder remote_dir m with
      | .error e => ⟨m, [], [], some e⟩
      | .ok (m', created) =>
        let r := apply_sync env cfg remote_dir m' rest
        ⟨r.manifest, r.downloads,
          (match created with | some p => [p] | none => []) ++ r.mkdirs, r.err⟩

/-! ## Manifest load (src/versions.rs) and the sync pass (src/sync_service.rs) -/

/-- Outcome of `File::open(parent_dir.join(".sync"))` plus
`read_to_string`: absent file, an open failure of another kind, a read
failure, or the full content. -/
inductive SyncFileState where
  | notFound
  | openErr
  | readErr
  | content (s : String)

/-- `LocalVersion::load_from_file`: a missing `.sync` yields the empty
manifest without error; an open failure of any other kind falls through
to `file.unwrap()` and panics (`crash`); a read failure propagates; content
that does not deserialize is a fatal deserialization error.  The
serde_json decoder is an external collaborator, supplied as `parse`. -/
def load_from_file (parse : String → Option Manifest) (st : SyncFileState) :
    Except AppErr Manifest :=
  match st with
  | .notFound => .ok []
  | .openErr => .error .crash
  | .readErr => .error (.external 0)
  | .content s =>
    match parse s with
    | none => .error .deser
    | some m => .ok m

/-- Full state and event log of one `SyncService::sync` pass; `writes`
records each attempted write of `.sync` (`save_in_file`). -/
structure SyncOut where
  fs : FS
  manifest : Manifest
  writes : List Manifest
  downloads : List Href
  removedFiles : List FsPath
  removedDirs : List FsPath
  err : Option AppErr

/-- `SyncService::sync`: retried listing → reconcile (`VersionService::init`,
which can panic) → delete locals → fetch/apply → persist.  Every failing
step aborts the pass immediately with its own error; `save_in_file` is
reached only when all earlier steps succeeded. -/
def sync (env : Env) (cfg : Config) (fs : FS) (m₀ : Manifest)
    (remote_dir : String) : SyncOut :=
  match (ConnRetry.default.execute_with_retries env.listAttempt).1 with
  | .error e => ⟨fs, m₀, [], [], [], [], some e⟩
  | .ok server_files =>
    match reconcile server_files m₀ with
    | none => ⟨fs, m₀, [], [], [], [], some .crash⟩
    | some v =>
      let del := delete_locals fs m₀ (files_to_remove v)
      match del.err with
      | some e => ⟨del.fs, del.manifest, [], [],
          del.removedFiles, del.removedDirs, some e⟩
      | none =>
        let ap := apply_sync env cfg remote_dir del.manifest
          (entities_to_download server_files v)
        match ap.err with
        | some e => ⟨del.fs, ap.manifest, [], ap.downloads,
            del.removedFiles, del.removedDirs, some e⟩
        | none =>
          match env.save ap.manifest with
          | .error e => ⟨del.fs, ap.manifest, [ap.manifest], ap.downloads,
              del.removedFiles, del.removedDirs, some e⟩
          | .ok _ => ⟨del.fs, ap.manifest, [ap.manifest], ap.downloads,
              del.removedFiles, del.removedDirs, none⟩

@[simp] theorem lookupA_nil (k : Href) : lookupA k ([] : List (Href × α)) = none := rfl

@[simp] theorem lookupA_cons (k k' : Href) (v : α) (l : List (Href × α)) :
    lookupA k ((k', v) :: l) = if k' = k then some v else lookupA k l := rfl

@[simp] theorem keysA_nil : keysA ([] : List (Href × α)) = [] := rfl

@[simp] theorem keysA_cons (k : Href) (v : α) (l : List (Href × α)) :
    keysA ((k, v) :: l) = k :: keysA l := rfl

theorem nodupKeys_nil : NodupKeys ([] : List (Href × α)) := List.nodup_nil

theorem nodupKeys_cons {k : Href} {v : α} {l : List (Href × α)} :
    NodupKeys ((k, v) :: l) ↔ k ∉ keysA l ∧ NodupKeys l := by
  simp [NodupKeys, keysA, List.nodup_cons]

theorem mem_keysA_iff_lookupA {k : Href} {l : List (Href × α)} :
    k ∈ keysA l ↔ lookupA k l ≠ none := by
  induction l with
  | nil => simp
  | cons p rest ih =>
    obtain ⟨k', v'⟩ := p
    by_cases h : k' = k
    · subst h
      simp
    · simp [h, ih, Ne.symm h]

theorem lookupA_eq_none_iff {k : Href} {l : List (Href × α)} :
    lookupA k l = none ↔ k ∉ keysA l := by
  rw [mem_keysA_iff_lookupA]
  tauto

theorem lookupA_isSome_of_mem_keys {k : Href} {l : List (Href × α)} (h : k ∈ keysA l) :
    ∃ v, lookupA k l = some v := by
  have := mem_keysA_iff_lookupA.mp h
  cases hl : lookupA k l with
  | none => exact absurd hl this
  | some v => exact ⟨v, rfl⟩

theorem mem_keys_of_lookupA {k : Href} {v : α} {l : List (Href × α)}
    (h : lookupA k l = some v) : k ∈ keysA l := by
  rw [mem_keysA_iff_lookupA, h]
  simp

theorem lookupA_some_mem {k : Href} {v : α} {l : List (Href × α)} :
    lookupA k l = some v → (k, v) ∈ l := by
  induction l with
  | nil => simp
  | cons p rest ih =>
    obtain ⟨k', v'⟩ := p
    by_cases h : k' = k <;> intro hl <;> simp [h] at hl
    · simp [h, ← hl]
    · exact List.mem_cons_of_mem _ (ih hl)

theorem mem_lookupA_of_nodup {k : Href} {v : α} {l : List (Href × α)}
    (hn : NodupKeys l) (hm : (k, v) ∈ l) : lookupA k l = some v := by
  induction l with
  | nil => simp at hm
  | cons p rest ih =>
    obtain ⟨k', v'⟩ := p
    obtain ⟨hk', hrest⟩ := nodupKeys_cons.mp hn
    rcases List.mem_cons.mp hm with h | h
    · have h1 : k = k' := congrArg Prod.fst h
      have h2 : v = v' := congrArg Prod.snd h
      subst h1
      subst h2
      simp
    · have hk : k' ≠ k := by
        intro he
        subst he
        exact hk' (List.mem_map_of_mem Prod.fst h)
      simp [hk, ih hrest h]

@[simp] theorem insertA_nil (k : Href) (v : α) : insertA k v ([] : List (Href × α)) = [(k, v)] := rfl

theorem lookupA_insertA_self (k : Href) (v : α) (l : List (Href × α)) :
    lookupA k (insertA k v l) = some v := by
  induction l with
  | nil => simp [insertA]
  | cons p rest ih =>
    obtain ⟨k', v'⟩ := p
    by_cases h : k' = k <;> simp [insertA, h, ih]

theorem lookupA_insertA_ne (k k' : Href) (v : α) (l : List (Href × α)) (h : k ≠ k') :
    lookupA k' (insertA k v l) = lookupA k' l := by
  induction l with
  | nil => simp [insertA, h]
  | cons p rest ih =>
    obtain ⟨k₀, v₀⟩ := p
    by_cases hk : k₀ = k
    · subst hk
      simp [insertA, h, Ne.symm h]
    · by_cases hk' : k₀ = k'
      · subst hk'
        simp [insertA, hk]
      · simp [insertA, hk, hk', ih]

theorem mem_keys_insertA (k k' : Href) (v : α) (l : List (Href × α)) :
    k' ∈ keysA (insertA k v l) ↔ k' = k ∨ k' ∈ keysA l := by
  induction l with
  | nil => simp [insertA, keysA]
  | cons p rest ih =>
    obtain ⟨k₀, v₀⟩ := p
    by_cases hk : k₀ = k
    · subst hk
      simp [insertA]
    · simp [insertA, hk, ih]
      tauto

theorem nodupKeys_insertA (k : Href) (v : α) (l : List (Href × α)) (hn : NodupKeys l) :
    NodupKeys (insertA k v l) := by
  induction l with
  | nil => simp [insertA, NodupKeys]
  | cons p rest ih =>
    obtain ⟨k₀, v₀⟩ := p
    obtain ⟨hk₀, hrest⟩ := nodupKeys_cons.mp hn
    by_cases hk : k₀ = k
    · subst hk
      have : insertA k₀ v ((k₀, v₀) :: rest) = (k₀, v) :: rest := by simp [insertA]
      rw [this]
      exact nodupKeys_cons.mpr ⟨hk₀, hrest⟩
    · have hins : insertA k v ((k₀, v₀) :: rest) = (k₀, v₀) :: insertA k v rest := by
        simp [insertA, hk]
      rw [hins]
      refine nodupKeys_cons.mpr ⟨?_, ih hrest⟩
      intro hmem
      rcases (mem_keys_insertA k k₀ v rest).mp hmem with h | h
      · exact hk h
      · exact hk₀ h

@[simp] theorem removeA_nil (k : Href) : removeA k ([] : List (Href × α)) = [] := rfl

theorem lookupA_removeA_ne (k k' : Href) (l : List (Href × α)) (h : k ≠ k') :
    lookupA k' (removeA k l) = lookupA k' l := by
  induction l with
  | nil => simp
  | cons p rest ih =>
    obtain ⟨k₀, v₀⟩ := p
    by_cases hk : k₀ = k
    · subst hk
      simp [removeA, h, Ne.symm h]
    · by_cases hk' : k₀ = k'
      · subst hk'
        simp [removeA, hk]
      · simp [removeA, hk, hk', ih]

theorem lookupA_removeA_self (k : Href) (l : List (Href × α)) (hn : NodupKeys l) :
    lookupA k (removeA k l) = none := by
  induction l with
  | nil => simp
  | cons p rest ih =>
    obtain ⟨k₀, v₀⟩ := p
    obtain ⟨hk₀, hrest⟩ := nodupKeys_cons.mp hn
    by_cases hk : k₀ = k
    · subst hk
      rw [show removeA k₀ ((k₀, v₀) :: rest) = rest by simp [removeA]]
      exact lookupA_eq_none_iff.mpr hk₀
    · simp [removeA, hk, ih hrest]

theorem mem_keys_removeA {k k' : Href} {l : List (Href × α)} (h : k' ≠ k) :
    (k' ∈ keysA (removeA k l)) ↔ k' ∈ keysA l := by
  induction l with
  | nil => simp
  | cons p rest ih =>
    obtain ⟨k₀, v₀⟩ := p
    by_cases hk : k₀ = k
    · subst hk
      simp [removeA, h, Ne.symm h]
    · simp [removeA, hk, ih]

theorem keysA_removeA_subset {k : Href} {l : List (Href × α)} :
    ∀ k', k' ∈ keysA (removeA k l) → k' ∈ keysA l := by
  induction l with
  | nil => simp
  | cons p rest ih =>
    obtain ⟨k₀, v₀⟩ := p
    intro k' hmem
    by_cases hk : k₀ = k
    · subst hk
      simp [removeA] at hmem
      simp [hmem]
    · simp [removeA, hk] at hmem
      rcases hmem with h | h
      · simp [h]
      · simpa using Or.inr (ih k' h)

theorem nodupKeys_removeA (k : Href) (l : List (Href × α)) (hn : NodupKeys l) :
    NodupKeys (removeA k l) := by
  induction l with
  | nil => simp [NodupKeys, removeA]
  | cons p rest ih =>
    obtain ⟨k₀, v₀⟩ := p
    obtain ⟨hk₀, hrest⟩ := nodupKeys_cons.mp hn
    by_cases hk : k₀ = k
    · subst hk
      simpa [removeA] using hrest
    · have : removeA k ((k₀, v₀) :: rest) = (k₀, v₀) :: removeA k rest := by
        simp [removeA, hk]
      rw [this]
      refine nodupKeys_cons.mpr ⟨?_, ih hrest⟩
      intro hmem
      exact hk₀ (keysA_removeA_subset k₀ hmem)

theorem serverLoop_char (localv : Manifest) :
    ∀ (rem : List (Href × ListEntity)) (acc : List (Href × Status)),
      NodupKeys rem → NodupKeys acc →
      (∀ h, h ∈ keysA rem →
        lookupA h acc = if h ∈ keysA localv then some Status.Local else none) →
      ∀ v, serverLoop localv acc rem = some v →
        NodupKeys v ∧
        (∀ h, h ∉ keysA rem → lookupA h v = lookupA h acc) ∧
        (∀ h e, lookupA h rem = some e →
          ∃ s, entryStatus localv h e = some s ∧ lookupA h v = some s) := by
  intro rem
  induction rem with
  | nil =>
    intro acc _ hacc _ v hv
    simp [serverLoop] at hv
    subst hv
    exact ⟨hacc, fun h _ => rfl, fun h e he => by simp at he⟩
  | cons entry rest ih =>
    obtain ⟨h₀, e₀⟩ := entry
    intro acc hrem hacc hinv v hv
    obtain ⟨hh₀, hrest⟩ := nodupKeys_cons.mp hrem
    have hstep : ∃ s₀, entryStatus localv h₀ e₀ = some s₀ ∧
        stepServer localv acc (h₀, e₀) = some (insertA h₀ s₀ acc) := by
      have hl := hinv h₀ (by simp)
      by_cases hmem : h₀ ∈ keysA localv
      · rw [if_pos hmem] at hl
        obtain ⟨lf, hlf⟩ := lookupA_isSome_of_mem_keys hmem
        cases e₀ with
        | Folder f =>
          exact ⟨Status.Sync, by simp [entryStatus, hlf],
            by simp [stepServer, hl, hlf]⟩
        | File f =>
          cases hlm : lf.last_modified with
          | none =>
            exfalso
            simp [serverLoop, stepServer, hl, hlf, hlm] at hv
          | some t =>
            refine ⟨if f.last_modified ≠ t then Status.OutOfDate else Status.Sync,
              by simp [entryStatus, hlf, hlm], ?_⟩
            by_cases hft : f.last_modified = t <;>
              simp [stepServer, hl, hlf, hlm, hft]
      · rw [if_neg hmem] at hl
        refine ⟨Status.Server, ?_, by simp [stepServer, hl]⟩
        have hnone : lookupA h₀ localv = none := lookupA_eq_none_iff.mpr hmem
        simp [entryStatus, hnone]
    obtain ⟨s₀, hes, hss⟩ := hstep
    have hv' : serverLoop localv (insertA h₀ s₀ acc) rest = some v := by
      simpa [serverLoop, hss] using hv
    have hinv' : ∀ h, h ∈ keysA rest →
        lookupA h (insertA h₀ s₀ acc) =
          if h ∈ keysA localv then some Status.Local else none := by
      intro h hh
      have hne : h₀ ≠ h := fun he => hh₀ (he ▸ hh)
      rw [lookupA_insertA_ne _ _ _ _ hne]
      exact hinv h (by simp [hh])
    obtain ⟨hnv, hout, hin⟩ :=
      ih (insertA h₀ s₀ acc) hrest (nodupKeys_insertA _ _ _ hacc) hinv' v hv'
    refine ⟨hnv, ?_, ?_⟩
    · intro h hh
      simp at hh
      rw [hout h hh.2, lookupA_insertA_ne _ _ _ _ (fun he => hh.1 he.symm)]
    · intro h e he
      by_cases heq : h₀ = h
      · subst heq
        have he' : e₀ = e := by simpa using he
        subst he'
        refine ⟨s₀, hes, ?_⟩
        rw [hout h₀ hh₀, lookupA_insertA_self]
      · have hrest' : lookupA h rest = some e := by simpa [heq] using he
        exact hin h e hrest'

@[simp] theorem lookupA_seedStatuses (localv : Manifest) (h : Href) :
    lookupA h (seedStatuses localv) = (lookupA h localv).map (fun _ => Status.Local) := by
  induction localv with
  | nil => simp [seedStatuses]
  | cons p rest ih =>
    obtain ⟨k, lf⟩ := p
    by_cases hk : k = h <;> simp [seedStatuses, hk] <;> simpa [seedStatuses] using ih

theorem keysA_seedStatuses (localv : Manifest) :
    keysA (seedStatuses localv) = keysA localv := by
  induction localv with
  | nil => rfl
  | cons p rest ih =>
    obtain ⟨k, lf⟩ := p
    simpa [seedStatuses, keysA] using ih

theorem nodupKeys_seedStatuses (localv : Manifest) (hn : NodupKeys localv) :
    NodupKeys (seedStatuses localv) := by
  unfold NodupKeys at *
  have := keysA_seedStatuses localv
  unfold keysA at this
  rw [this]
  exact hn

/-- The characterization of `Version::new` on a server map with unique
keys: the output looks up as `entryStatus` on server keys, as `Local` on
manifest-only keys, and as `none` elsewhere. -/
theorem Version.new_char (server : List (Href × ListEntity)) (localv : Manifest)
    (hs : NodupKeys server) (hl : NodupKeys localv)
    (v : List (Href × Status)) (hv : Version.new server localv = some v) :
    NodupKeys v ∧
    (∀ h, h ∉ keysA server →
      lookupA h v = (lookupA h localv).map (fun _ => Status.Local)) ∧
    (∀ h e, lookupA h server = some e →
      ∃ s, entryStatus localv h e = some s ∧ lookupA h v = some s) := by
  have hinv : ∀ h, h ∈ keysA server →
      lookupA h (seedStatuses localv) =
        if h ∈ keysA localv then some Status.Local else none := by
    intro h _
    rw [lookupA_seedStatuses]
    by_cases hm : h ∈ keysA localv
    · obtain ⟨lf, hlf⟩ := lookupA_isSome_of_mem_keys hm
      simp [hlf, hm]
    · simp [lookupA_eq_none_iff.mpr hm, hm]
  obtain ⟨hnv, hout, hin⟩ :=
    serverLoop_char localv server (seedStatuses localv) hs
      (nodupKeys_seedStatuses localv hl) hinv v hv
  exact ⟨hnv, fun h hh => by rw [hout h hh, lookupA_seedStatuses], hin⟩

/-! ## Facts about `ServerVersion::from_entities` -/

theorem lookupA_entity_fold_not_mem (es : List ListEntity) :
    ∀ (acc : List (Href × ListEntity)) (h : Href), h ∉ es.map ListEntity.href →
      lookupA h (es.foldl (fun files f => insertA f.href f files) acc) = lookupA h acc := by
  induction es with
  | nil => intro acc h _; rfl
  | cons e rest ih =>
    intro acc h hh
    simp at hh
    rw [List.foldl_cons, ih _ h (by simpa using hh.2),
      lookupA_insertA_ne _ _ _ _ (fun he => hh.1 he.symm)]

theorem mem_keys_entity_fold (es : List ListEntity) :
    ∀ (acc : List (Href × ListEntity)) (h : Href),
      h ∈ keysA (es.foldl (fun files f => insertA f.href f files) acc) ↔
        h ∈ keysA acc ∨ h ∈ es.map ListEntity.href := by
  induction es with
  | nil => intro acc h; simp
  | cons e rest ih =>
    intro acc h
    rw [List.foldl_cons, ih]
    rw [mem_keys_insertA]
    simp
    tauto

theorem nodupKeys_entity_fold (es : List ListEntity) :
    ∀ (acc : List (Href × ListEntity)), NodupKeys acc →
      NodupKeys (es.foldl (fun files f => insertA f.href f files) acc) := by
  induction es with
  | nil => intro acc hacc; exact hacc
  | cons e rest ih =>
    intro acc hacc
    exact ih _ (nodupKeys_insertA _ _ _ hacc)

theorem nodupKeys_from_entities (es : List ListEntity) :
    NodupKeys (ServerVersion.from_entities es) :=
  nodupKeys_entity_fold es [] nodupKeys_nil

theorem mem_keys_from_entities (es : List ListEntity) (h : Href) :
    h ∈ keysA (ServerVersion.from_entities es) ↔ h ∈ es.map ListEntity.href := by
  unfold ServerVersion.from_entities
  rw [mem_keys_entity_fold]
  simp

theorem lookup_from_entities_mem {es : List ListEntity} {h : Href} {e : ListEntity} :
    lookupA h (ServerVersion.from_entities es) = some e → e ∈ es ∧ e.href = h := by
  suffices haux : ∀ acc, lookupA h (es.foldl (fun files f => insertA f.href f files) acc) = some e →
      (e ∈ es ∧ e.href = h) ∨ lookupA h acc = some e by
    intro hl
    rcases haux [] hl with hc | hc
    · exact hc
    · simp at hc
  induction es with
  | nil =>
    intro acc hl
    exact Or.inr hl
  | cons e₀ rest ih =>
    intro acc hl
    rw [List.foldl_cons] at hl
    rcases ih _ hl with hc | hc
    · exact Or.inl ⟨List.mem_cons_of_mem _ hc.1, hc.2⟩
    · by_cases he : e₀.href = h
      · rw [← he, lookupA_insertA_self] at hc
        have : e₀ = e := by simpa using hc
        subst this
        exact Or.inl ⟨List.mem_cons_self _ _, he⟩
      · rw [lookupA_insertA_ne _ _ _ _ he] at hc
        exact Or.inr hc

theorem lookupA_entity_fold_congr (es : List ListEntity) :
    ∀ (acc₁ acc₂ : List (Href × ListEntity)) (h : Href),
      lookupA h acc₁ = lookupA h acc₂ →
      lookupA h (es.foldl (fun files f => insertA f.href f files) acc₁) =
        lookupA h (es.foldl (fun files f => insertA f.href f files) acc₂) := by
  induction es with
  | nil => intro acc₁ acc₂ h hl; exact hl
  | cons e rest ih =>
    intro acc₁ acc₂ h hl
    rw [List.foldl_cons, List.foldl_cons]
    refine ih _ _ h ?_
    by_cases he : e.href = h
    · subst he
      rw [lookupA_insertA_self, lookupA_insertA_self]
    · rw [lookupA_insertA_ne _ _ _ _ he, lookupA_insertA_ne _ _ _ _ he]
      exact hl

theorem lookup_from_entities_of_nodup {es : List ListEntity}
    (hn : (es.map ListEntity.href).Nodup) {e : ListEntity} (he : e ∈ es) :
    lookupA e.href (ServerVersion.from_entities es) = some e := by
  unfold ServerVersion.from_entities
  induction es generalizing e with
  | nil => simp at he
  | cons e₀ rest ih =>
    rw [List.map_cons] at hn
    obtain ⟨hn1, hn2⟩ := List.nodup_cons.mp hn
    rcases List.mem_cons.mp he with h | h
    · subst h
      rw [List.foldl_cons,
        lookupA_entity_fold_not_mem rest _ e.href hn1,
        lookupA_insertA_self]
    · have hne : e₀.href ≠ e.href := by
        intro hcontra
        exact hn1 (hcontra ▸ List.mem_map_of_mem ListEntity.href h)
      rw [List.foldl_cons]
      have := ih hn2 h
      calc lookupA e.href (rest.foldl (fun files f => insertA f.href f files)
            (insertA e₀.href e₀ []))
          = lookupA e.href (rest.foldl (fun files f => insertA f.href f files) []) :=
            lookupA_entity_fold_congr rest _ _ e.href
              (lookupA_insertA_ne _ _ _ _ hne)
        _ = some e := this

/-! ## Membership in the action lists -/

theorem mem_files_to_remove {v : List (Href × Status)} (hn : NodupKeys v) (h : Href) :
    h ∈ files_to_remove v ↔ lookupA h v = some Status.Local := by
  unfold files_to_remove
  rw [List.mem_map]
  constructor
  · rintro ⟨p, hp, hph⟩
    obtain ⟨hpv, hps⟩ := List.mem_filter.mp hp
    have hs : p.2 = Status.Local := by simpa using hps
    have hmem : (h, Status.Local) ∈ v := by
      rw [← hph, ← hs]
      simpa using hpv
    exact mem_lookupA_of_nodup hn hmem
  · intro hl
    exact ⟨(h, Status.Local),
      List.mem_filter.mpr ⟨lookupA_some_mem hl, by simp⟩, rfl⟩

theorem mem_files_to_download {v : List (Href × Status)} (hn : NodupKeys v) (h : Href) :
    h ∈ files_to_download v ↔ ∃ s, lookupA h v = some s ∧ s ≠ Status.Sync := by
  unfold files_to_download
  rw [List.mem_map]
  constructor
  · rintro ⟨p, hp, hph⟩
    obtain ⟨hpv, hps⟩ := List.mem_filter.mp hp
    have hs : p.2 ≠ Status.Sync := by simpa using hps
    refine ⟨p.2, ?_, hs⟩
    rw [← hph]
    exact mem_lookupA_of_nodup hn (by simpa using hpv)
  · rintro ⟨s, hl, hs⟩
    exact ⟨(h, s),
      List.mem_filter.mpr ⟨lookupA_some_mem hl, by simpa using hs⟩, rfl⟩

theorem entryStatus_ne_local {localv : Manifest} {h : Href} {e : ListEntity} {s : Status}
    (he : entryStatus localv h e = some s) : s ≠ Status.Local := by
  unfold entryStatus at he
  cases hl : lookupA h localv with
  | none =>
    simp [hl] at he
    subst he
    simp
  | some lf =>
    cases e with
    | Folder f =>
      simp [hl] at he
      subst he
      simp
    | File f =>
      cases hlm : lf.last_modified with
      | none => simp [hl, hlm] at he
      | some t =>
        simp [hl, hlm] at he
        by_cases hft : f.last_modified = t
        · simp [hft] at he
          subst he
          simp
        · simp [hft] at he
          subst he
          simp

theorem contains_iff_mem {l : List Href} {h : Href} : l.contains h = true ↔ h ∈ l := by
  induction l with
  | nil => simp
  | cons x rest ih => simp [List.contains]

theorem reconcile_char (entities : List ListEntity) (localv : Manifest)
    (hl : NodupKeys localv) (v : List (Href × Status))
    (hv : reconcile entities localv = some v) :
    NodupKeys v ∧
    (∀ h, h ∉ entities.map ListEntity.href →
      lookupA h v = (lookupA h localv).map (fun _ => Status.Local)) ∧
    (∀ h e, lookupA h (ServerVersion.from_entities entities) = some e →
      ∃ s, entryStatus localv h e = some s ∧ lookupA h v = some s) := by
  obtain ⟨h1, h2, h3⟩ :=
    Version.new_char _ _ (nodupKeys_from_entities entities) hl v hv
  refine ⟨h1, ?_, h3⟩
  intro h hh
  exact h2 h (fun hc => hh ((mem_keys_from_entities entities h).mp hc))

/-! ## Claim theorems on the reconciler -/

/-- C2: on every manifest with unique keys and every remote listing on
which the reconciler completes, each href in the union of the manifest keys
and the listing hrefs carries exactly one of the four statuses, and no href
outside the union carries any status — the four status classes partition
the union. -/
theorem claim_C2_partition (entities : List ListEntity) (localv : Manifest)
    (hl : NodupKeys localv) (v : List (Href × Status))
    (hv : reconcile entities localv = some v) :
    ∀ h : Href, (h ∈ keysA localv ∨ h ∈ entities.map ListEntity.href) ↔
      ∃! s : Status, (h, s) ∈ v := by
  obtain ⟨hnv, hout, hin⟩ := reconcile_char entities localv hl v hv
  intro h
  constructor
  · intro hu
    by_cases hsrv : h ∈ entities.map ListEntity.href
    · have hks : h ∈ keysA (ServerVersion.from_entities entities) :=
        (mem_keys_from_entities _ h).mpr hsrv
      obtain ⟨e, he⟩ := lookupA_isSome_of_mem_keys hks
      obtain ⟨s, _, hls⟩ := hin h e he
      refine ⟨s, lookupA_some_mem hls, ?_⟩
      intro s' hs'
      have h2 := mem_lookupA_of_nodup hnv hs'
      rw [hls] at h2
      exact Option.some_injective _ h2.symm
    · have hm : h ∈ keysA localv := hu.resolve_right hsrv
      obtain ⟨lf, hlf⟩ := lookupA_isSome_of_mem_keys hm
      have hlv : lookupA h v = some Status.Local := by
        rw [hout h hsrv, hlf]
        rfl
      refine ⟨Status.Local, lookupA_some_mem hlv, ?_⟩
      intro s' hs'
      have h2 := mem_lookupA_of_nodup hnv hs'
      rw [hlv] at h2
      exact Option.some_injective _ h2.symm
  · rintro ⟨s, hs, _⟩
    by_contra hu
    push_neg at hu
    have h1 := hout h hu.2
    rw [lookupA_eq_none_iff.mpr hu.1] at h1
    have h2 := mem_lookupA_of_nodup hnv hs
    rw [h2] at h1
    simp at h1

/-- C3: `entities_to_download` is exactly the original listing filtered to
the entities whose href is `Server` (remote-only) or `OutOfDate` (stale) —
payloads are untouched because the result is a filter of the input; and, in
particular, a file href present in the manifest with a stored timestamp
that differs from the remote one is `OutOfDate`, its entities are in the
download set, and it is not in the remove set. -/
theorem claim_C3_downloads (entities : List ListEntity) (localv : Manifest)
    (hl : NodupKeys localv) (v : List (Href × Status))
    (hv : reconcile entities localv = some v) :
    (entities_to_download entities v = entities.filter (fun e =>
      decide (lookupA e.href v = some Status.Server ∨
        lookupA e.href v = some Status.OutOfDate))) ∧
    (∀ h lf fl t1, lookupA h localv = some lf → lf.last_modified = some t1 →
      lookupA h (ServerVersion.from_entities entities) = some (ListEntity.File fl) →
      fl.last_modified ≠ t1 →
      lookupA h v = some Status.OutOfDate ∧
      (∀ e, e ∈ entities → ListEntity.href e = h →
        e ∈ entities_to_download entities v) ∧
      h ∉ files_to_remove v) := by
  obtain ⟨hnv, hout, hin⟩ := reconcile_char entities localv hl v hv
  have hstatus : ∀ e, e ∈ entities →
      ∃ s, lookupA e.href v = some s ∧ s ≠ Status.Local := by
    intro e he
    have hks : e.href ∈ keysA (ServerVersion.from_entities entities) :=
      (mem_keys_from_entities _ _).mpr (List.mem_map_of_mem ListEntity.href he)
    obtain ⟨ent, hent⟩ := lookupA_isSome_of_mem_keys hks
    obtain ⟨s, hes, hls⟩ := hin e.href ent hent
    exact ⟨s, hls, entryStatus_ne_local hes⟩
  constructor
  · unfold entities_to_download
    refine List.filter_congr ?_
    intro e he
    obtain ⟨s, hls, hsl⟩ := hstatus e he
    have hbool : ∀ (a b : Bool), (a = true ↔ b = true) → a = b := by decide
    refine hbool _ _ ?_
    rw [contains_iff_mem, mem_files_to_download hnv]
    simp only [decide_eq_true_eq]
    constructor
    · rintro ⟨s', hls', hne⟩
      rw [hls] at hls'
      have : s = s' := Option.some_injective _ hls'
      subst this
      cases s with
      | Local => exact absurd rfl hsl
      | Server => exact Or.inl hls
      | OutOfDate => exact Or.inr hls
      | Sync => exact absurd rfl hne
    · rintro (hserv | hood)
      · exact ⟨Status.Server, hserv, by simp⟩
      · exact ⟨Status.OutOfDate, hood, by simp⟩
  · intro h lf fl t1 hlf hlm hsrv hne
    obtain ⟨s, hes, hls⟩ := hin h (ListEntity.File fl) hsrv
    have hst : s = Status.OutOfDate := by
      simp [entryStatus, hlf, hlm, hne] at hes
      exact hes.symm
    subst hst
    refine ⟨hls, ?_, ?_⟩
    · intro e he hhe
      unfold entities_to_download
      refine List.mem_filter.mpr ⟨he, ?_⟩
      rw [contains_iff_mem, mem_files_to_download hnv, hhe]
      exact ⟨Status.OutOfDate, hls, by simp⟩
    · intro hmem
      rw [mem_files_to_remove hnv] at hmem
      rw [hls] at hmem
      simp at hmem

/-- C10: a remote `File` entity whose href the manifest records without a
timestamp (for instance as a directory) makes `Version::new` panic on the
`unwrap`, modelled as `reconcile` returning `none` instead of any status
assignment or error value. -/
theorem claim_C10_type_change_panics (entities : List ListEntity)
    (localv : Manifest) (hl : NodupKeys localv)
    (hne : (entities.map ListEntity.href).Nodup)
    (fl : ListFile) (hf : ListEntity.File fl ∈ entities)
    (lf : LocalFile) (hm : lookupA fl.href localv = some lf)
    (hnone : lf.last_modified = none) :
    reconcile entities localv = none := by
  cases hv : reconcile entities localv with
  | none => rfl
  | some v =>
    exfalso
    obtain ⟨_, _, hin⟩ := reconcile_char entities localv hl v hv
    have hsrv := lookup_from_entities_of_nodup hne hf
    obtain ⟨s, hes, _⟩ := hin fl.href _ hsrv
    simp [entryStatus, hm, hnone] at hes

theorem isPrefixOf_append_self (l t : FsPath) : List.isPrefixOf l (l ++ t) = true := by
  induction l with
  | nil => simp [List.isPrefixOf]
  | cons x rest ih => simp [List.isPrefixOf, ih]

theorem removeDirAll_ok {fs : FS} {p : FsPath} (hdir : p ∈ fs.dirs) :
    removeDirAll fs p = .ok ⟨fs.dirs.filter (fun q => !(List.isPrefixOf p q)),
      fs.files.filter (fun q => !(List.isPrefixOf p q))⟩ := by
  simp [removeDirAll, hdir]

theorem removeFile_ok {fs : FS} {p : FsPath} (hf : p ∈ fs.files) :
    removeFile fs p = .ok ⟨fs.dirs, fs.files.filter (fun q => q ≠ p)⟩ := by
  simp [removeFile, hf]

theorem delete_locals_cons_dir {fs fs' : FS} {m : Manifest} {href : Href}
    {rest : List Href} {file : LocalFile}
    (hfile : lookupA href m = some file) (hdir : file.path ∈ fs.dirs)
    (hok : removeDirAll fs file.path = .ok fs') :
    delete_locals fs m (href :: rest) =
      (let r := delete_locals fs' (removeA href m) rest
       ⟨r.fs, r.manifest, file.path :: r.folders_to_delete,
         r.removedFiles, file.path :: r.removedDirs, r.err⟩) := by
  simp [delete_locals, hfile, hdir, hok]

theorem delete_locals_cons_file {fs fs' : FS} {m : Manifest} {href : Href}
    {rest : List Href} {file : LocalFile}
    (hfile : lookupA href m = some file) (hdir : file.path ∉ fs.dirs)
    (hf : file.path ∈ fs.files) (hok : removeFile fs file.path = .ok fs') :
    delete_locals fs m (href :: rest) =
      (let r := delete_locals fs' (removeA href m) rest
       ⟨r.fs, r.manifest, r.folders_to_delete,
         file.path :: r.removedFiles, r.removedDirs, r.err⟩) := by
  simp [delete_locals, hfile, hdir, hf, hok]

theorem delete_locals_cons_skip {fs : FS} {m : Manifest} {href : Href}
    {rest : List Href} {file : LocalFile}
    (hfile : lookupA href m = some file) (hdir : file.path ∉ fs.dirs)
    (hf : file.path ∉ fs.files) :
    delete_locals fs m (href :: rest) = delete_locals fs (removeA href m) rest := by
  simp [delete_locals, hfile, hdir, hf]

/-- If every href to delete is a manifest key (each exactly once), no pop
fails and no filesystem delete errors: the pass's deletion step succeeds. -/
theorem delete_locals_ok (to_del : List Href) :
    ∀ (fs : FS) (m : Manifest), NodupKeys m → to_del.Nodup →
      (∀ h, h ∈ to_del → h ∈ keysA m) →
      (delete_locals fs m to_del).err = none := by
  induction to_del with
  | nil => intro fs m _ _ _; rfl
  | cons href rest ih =>
    intro fs m hnm hnd hsub
    obtain ⟨hhd, hrest⟩ := List.nodup_cons.mp hnd
    obtain ⟨file, hfile⟩ := lookupA_isSome_of_mem_keys (hsub href (by simp))
    have hsub' : ∀ h, h ∈ rest → h ∈ keysA (removeA href m) := by
      intro h hh
      have hne : h ≠ href := fun he => hhd (he ▸ hh)
      exact (mem_keys_removeA hne).mpr (hsub h (by simp [hh]))
    have hnm' := nodupKeys_removeA href m hnm
    by_cases hdir : file.path ∈ fs.dirs
    · rw [delete_locals_cons_dir hfile hdir (removeDirAll_ok hdir)]
      exact ih _ _ hnm' hrest hsub'
    · by_cases hf : file.path ∈ fs.files
      · rw [delete_locals_cons_file hfile hdir hf (removeFile_ok hf)]
        exact ih _ _ hnm' hrest hsub'
      · rw [delete_locals_cons_skip hfile hdir hf]
        exact ih _ _ hnm' hrest hsub'

/-- The manifest after the deletion loop: exactly the popped hrefs are
gone, everything else is untouched (when the loop completes). -/
theorem delete_locals_manifest (to_del : List Href) :
    ∀ (fs : FS) (m : Manifest), NodupKeys m →
      (delete_locals fs m to_del).err = none →
      ∀ h, lookupA h (delete_locals fs m to_del).manifest =
        if h ∈ to_del then none else lookupA h m := by
  induction to_del with
  | nil => intro fs m _ _ h; simp [delete_locals]
  | cons href rest ih =>
    intro fs m hnm herr h
    cases hfile : lookupA href m with
    | none =>
      exfalso
      simp [delete_locals, hfile] at herr
    | some file =>
      have hnm' := nodupKeys_removeA href m hnm
      have hstep : ∀ (fs'' : FS),
          (delete_locals fs'' (removeA href m) rest).err = none →
          lookupA h (delete_locals fs'' (removeA href m) rest).manifest =
            if h ∈ href :: rest then none else lookupA h m := by
        intro fs'' herr''
        rw [ih fs'' (removeA href m) hnm' herr'']
        by_cases hh : h ∈ rest
        · simp [hh]
        · by_cases hhh : h = href
          · subst hhh
            simp [hh, lookupA_removeA_self h m hnm]
          · simp [hh, hhh, lookupA_removeA_ne _ _ _ (fun he => hhh he.symm)]
      by_cases hdir : file.path ∈ fs.dirs
      · rw [delete_locals_cons_dir hfile hdir (removeDirAll_ok hdir)] at herr ⊢
        exact hstep _ herr
      · by_cases hf : file.path ∈ fs.files
        · rw [delete_locals_cons_file hfile hdir hf (removeFile_ok hf)] at herr ⊢
          exact hstep _ herr
        · rw [delete_locals_cons_skip hfile hdir hf] at herr ⊢
          exact hstep _ herr

theorem files_to_remove_nodup {v : List (Href × Status)} (hn : NodupKeys v) :
    (files_to_remove v).Nodup := by
  unfold files_to_remove
  exact List.Nodup.sublist ((List.filter_sublist v).map Prod.fst) hn

theorem files_to_remove_subset_keys (entities : List ListEntity)
    (localv : Manifest) (hl : NodupKeys localv) (v : List (Href × Status))
    (hv : reconcile entities localv = some v) :
    ∀ h, h ∈ files_to_remove v → h ∈ keysA localv := by
  obtain ⟨hnv, hout, hin⟩ := reconcile_char entities localv hl v hv
  intro h hh
  rw [mem_files_to_remove hnv] at hh
  by_cases hsrv : h ∈ entities.map ListEntity.href
  · exfalso
    obtain ⟨e, he⟩ := lookupA_isSome_of_mem_keys
      ((mem_keys_from_entities _ h).mpr hsrv)
    obtain ⟨s, hes, hls⟩ := hin h e he
    rw [hls] at hh
    exact entryStatus_ne_local hes (Option.some_injective _ hh.symm).symm
  · have := hout h hsrv
    rw [hh] at this
    cases hlf : lookupA h localv with
    | none => rw [hlf] at this; simp at this
    | some lf => exact mem_keys_of_lookupA hlf

/-- C7: every href that `files_to_remove` reports is a key of the manifest
the reconciliation was computed from, so during the deletion pass every
`LocalVersion::remove(..).unwrap()` pop succeeds — the fatal absent-href
branch is unreachable and the deletion loop finishes without error. -/
theorem claim_C7_pops_succeed (entities : List ListEntity) (localv : Manifest)
    (hl : NodupKeys localv) (v : List (Href × Status))
    (hv : reconcile entities localv = some v) :
    (∀ h, h ∈ files_to_remove v → ∃ lf, lookupA h localv = some lf) ∧
    (∀ fs : FS, (delete_locals fs localv (files_to_remove v)).err = none) := by
  have hsub := files_to_remove_subset_keys entities localv hl v hv
  obtain ⟨hnv, _, _⟩ := reconcile_char entities localv hl v hv
  refine ⟨fun h hh => lookupA_isSome_of_mem_keys (hsub h hh), fun fs => ?_⟩
  exact delete_locals_ok (files_to_remove v) fs localv hl
    (files_to_remove_nodup hnv) hsub

theorem delete_locals_hist_cons_dir {fs fs' : FS} {m : MainManifest}
    {folders : List FsPath} {href : Href} {rest : List Href} {path : FsPath}
    (hpath : lookupA href m = some path) (hdir : path ∈ fs.dirs)
    (hok : removeDirAll fs path = .ok fs') :
    delete_locals_hist fs m folders (href :: rest) =
      (let r := delete_locals_hist fs' (removeA href m) (folders ++ [path]) rest
       ⟨r.fs, r.manifest, r.folders_to_delete, r.removedFiles,
         path :: r.removedDirs, r.err⟩) := by
  simp [delete_locals_hist, hpath, hdir, hok]

theorem delete_locals_hist_cons_under_root {fs : FS} {m : MainManifest}
    {folders : List FsPath} {href : Href} {rest : List Href} {path : FsPath}
    (hpath : lookupA href m = some path) (hdir : path ∉ fs.dirs)
    (hroot : ∃ d ∈ folders, List.isPrefixOf d path = true) :
    delete_locals_hist fs m folders (href :: rest) =
      delete_locals_hist fs (removeA href m) folders rest := by
  by_cases hf : path ∈ fs.files
  · have hany : folders.any (fun d => List.isPrefixOf d path) = true := by
      obtain ⟨d, hd, hp⟩ := hroot
      exact List.any_eq_true.mpr ⟨d, hd, hp⟩
    simp [delete_locals_hist, hpath, hdir, hf, hany]
  · simp [delete_locals_hist, hpath, hdir, hf]

/-- C1: in the deletion pass, a popped directory entry is removed
recursively and its path recorded as a deleted root; a popped file entry
whose path lies under an already-recorded root is skipped on the
filesystem (the prefix test / `continue 'hrefs`) while its manifest entry
is still dropped; and in the directory-plus-nested-file scenario the pass
deletes the directory once, never attempts the nested file, empties the
manifest and reports no error — in the historical variant (src/main.rs)
and, for the scenario, also in the current variant (src/sync_service.rs). -/
theorem claim_C1_no_double_delete :
    (∀ (fs fs' : FS) (m : MainManifest) (folders : List FsPath) (href : Href)
        (rest : List Href) (path : FsPath),
        lookupA href m = some path → path ∈ fs.dirs →
        removeDirAll fs path = .ok fs' →
        delete_locals_hist fs m folders (href :: rest) =
          (let r := delete_locals_hist fs' (removeA href m) (folders ++ [path]) rest
           ⟨r.fs, r.manifest, r.folders_to_delete, r.removedFiles,
             path :: r.removedDirs, r.err⟩)) ∧
    (∀ (fs : FS) (m : MainManifest) (folders : List FsPath) (href : Href)
        (rest : List Href) (path : FsPath),
        lookupA href m = some path → path ∉ fs.dirs →
        (∃ d ∈ folders, List.isPrefixOf d path = true) →
        delete_locals_hist fs m folders (href :: rest) =
          delete_locals_hist fs (removeA href m) folders rest) ∧
    (∀ (fs : FS) (pd : FsPath) (a : String) (hD hDa : Href),
        hD ≠ hDa → pd ∈ fs.dirs →
        (delete_locals_hist fs [(hD, pd), (hDa, pd ++ [a])] [] [hD, hDa]).err
            = none ∧
        (delete_locals_hist fs [(hD, pd), (hDa, pd ++ [a])] [] [hD, hDa]).manifest
            = [] ∧
        (pd ++ [a]) ∉
          (delete_locals_hist fs [(hD, pd), (hDa, pd ++ [a])] [] [hD, hDa]).removedFiles) ∧
    (∀ (fs : FS) (pd : FsPath) (a : String) (hD hDa : Href) (t : Nat),
        hD ≠ hDa → pd ∈ fs.dirs →
        (delete_locals fs [(hD, ⟨pd, true, none⟩),
            (hDa, ⟨pd ++ [a], false, some t⟩)] [hD, hDa]).err = none ∧
        (delete_locals fs [(hD, ⟨pd, true, none⟩),
            (hDa, ⟨pd ++ [a], false, some t⟩)] [hD, hDa]).manifest = [] ∧
        (pd ++ [a]) ∉ (delete_locals fs [(hD, ⟨pd, true, none⟩),
            (hDa, ⟨pd ++ [a], false, some t⟩)] [hD, hDa]).removedFiles) := by
  refine ⟨fun fs fs' m folders href rest path hpath hdir hok =>
      delete_locals_hist_cons_dir hpath hdir hok,
    fun fs m folders href rest path hpath hdir hroot =>
      delete_locals_hist_cons_under_root hpath hdir hroot, ?_, ?_⟩
  · intro fs pd a hD hDa hne hdir
    have hpre := isPrefixOf_append_self pd [a]
    have hnd : (pd ++ [a]) ∉ fs.dirs.filter (fun q => !(List.isPrefixOf pd q)) := by
      intro hmem
      have := (List.mem_filter.mp hmem).2
      simp [hpre] at this
    have hnf : (pd ++ [a]) ∉ fs.files.filter (fun q => !(List.isPrefixOf pd q)) := by
      intro hmem
      have := (List.mem_filter.mp hmem).2
      simp [hpre] at this
    have hlook1 : lookupA hD [(hD, pd), (hDa, pd ++ [a])] = some pd := by simp
    have hlook2 : lookupA hDa [(hDa, pd ++ [a])] = some (pd ++ [a]) := by simp
    have hcalc : delete_locals_hist fs [(hD, pd), (hDa, pd ++ [a])] [] [hD, hDa] =
        ⟨⟨fs.dirs.filter (fun q => !(List.isPrefixOf pd q)),
          fs.files.filter (fun q => !(List.isPrefixOf pd q))⟩,
          [], [pd], [], [pd], none⟩ := by
      rw [delete_locals_hist_cons_dir hlook1 hdir (removeDirAll_ok hdir)]
      rw [show removeA hD [(hD, pd), (hDa, pd ++ [a])] = [(hDa, pd ++ [a])] from
        by simp [removeA]]
      rw [delete_locals_hist_cons_under_root hlook2 hnd ⟨pd, by simp, hpre⟩]
      rw [show removeA hDa [(hDa, pd ++ [a])] = [] from by simp [removeA]]
      rfl
    rw [hcalc]
    refine ⟨rfl, rfl, by simp⟩
  · intro fs pd a hD hDa t hne hdir
    have hpre := isPrefixOf_append_self pd [a]
    have hnd : (pd ++ [a]) ∉ fs.dirs.filter (fun q => !(List.isPrefixOf pd q)) := by
      intro hmem
      have := (List.mem_filter.mp hmem).2
      simp [hpre] at this
    have hnf : (pd ++ [a]) ∉ fs.files.filter (fun q => !(List.isPrefixOf pd q)) := by
      intro hmem
      have := (List.mem_filter.mp hmem).2
      simp [hpre] at this
    have hlook1 : lookupA hD [(hD, (⟨pd, true, none⟩ : LocalFile)),
        (hDa, ⟨pd ++ [a], false, some t⟩)] = some ⟨pd, true, none⟩ := by simp
    have hlook2 : lookupA hDa [(hDa, (⟨pd ++ [a], false, some t⟩ : LocalFile))] =
        some ⟨pd ++ [a], false, some t⟩ := by simp
    have hcalc : delete_locals fs [(hD, ⟨pd, true, none⟩),
        (hDa, ⟨pd ++ [a], false, some t⟩)] [hD, hDa] =
        ⟨⟨fs.dirs.filter (fun q => !(List.isPrefixOf pd q)),
          fs.files.filter (fun q => !(List.isPrefixOf pd q))⟩,
          [], [pd], [], [pd], none⟩ := by
      rw [delete_locals_cons_dir hlook1 hdir (removeDirAll_ok hdir)]
      rw [show removeA hD [(hD, (⟨pd, true, none⟩ : LocalFile)),
            (hDa, ⟨pd ++ [a], false, some t⟩)] =
          [(hDa, ⟨pd ++ [a], false, some t⟩)] from by simp [removeA]]
      rw [delete_locals_cons_skip hlook2 hnd hnf]
      rw [show removeA hDa [(hDa, (⟨pd ++ [a], false, some t⟩ : LocalFile))] = []
        from by simp [removeA]]
      rfl
    rw [hcalc]
    refine ⟨rfl, rfl, by simp⟩

/-- C8: under the default policy the wrapped operation is attempted at
most 3 times with a fixed 250 ms sleep after each non-final failure: the
first success within the bound is returned as-is, and if all 3 attempts
fail the error of the last attempt is returned. -/
theorem claim_C8_retry {E T : Type} (f : Nat → Except E T) :
    (∀ (k : Nat) (r : T), k < 3 → f k = .ok r →
      (∀ j, j < k → ∃ e, f j = .error e) →
      (ConnRetry.default.execute_with_retries f).1 = .ok r ∧
      (ConnRetry.default.execute_with_retries f).2 = List.replicate k 250) ∧
    (∀ e0 e1 e2, f 0 = .error e0 → f 1 = .error e1 → f 2 = .error e2 →
      (ConnRetry.default.execute_with_retries f).1 = .error e2 ∧
      (ConnRetry.default.execute_with_retries f).2 = [250, 250]) := by
  constructor
  · intro k r hk hok hprev
    interval_cases k
    · constructor <;>
        simp [ConnRetry.execute_with_retries, ConnRetry.run, ConnRetry.default, hok]
    · obtain ⟨e0, he0⟩ := hprev 0 (by omega)
      constructor <;>
        simp [ConnRetry.execute_with_retries, ConnRetry.run, ConnRetry.default,
          hok, he0, List.replicate]
    · obtain ⟨e0, he0⟩ := hprev 0 (by omega)
      obtain ⟨e1, he1⟩ := hprev 1 (by omega)
      constructor <;>
        simp [ConnRetry.execute_with_retries, ConnRetry.run, ConnRetry.default,
          hok, he0, he1, List.replicate]
  · intro e0 e1 e2 he0 he1 he2
    constructor <;>
      simp [ConnRetry.execute_with_retries, ConnRetry.run, ConnRetry.default,
        he0, he1, he2]

theorem download_file_ok_manifest {env : Env} {cfg : Config} {file : ListFile}
    {remote_dir : String} {m m' : Manifest} {fetched : Bool}
    (h : download_file env cfg file remote_dir m = (.ok m', fetched)) :
    ∃ p, m' = insertA file.href ⟨p, false, some file.last_modified⟩ m := by
  unfold download_file at h
  split at h
  · simp at h
  · split at h
    · simp at h
    · split at h
      · simp at h
      · split at h
        · simp at h
        · simp at h
          exact ⟨_, h.1.symm⟩

theorem create_dir_ok_manifest {env : Env} {cfg : Config} {folder : ListFolder}
    {remote_dir : String} {m m' : Manifest} {created : Option FsPath}
    (h : create_dir env cfg folder remote_dir m = .ok (m', created)) :
    m' = m ∨ ∃ entry, m' = insertA folder.href entry m := by
  unfold create_dir at h
  split at h
  · simp at h
  · split at h
    · simp at h
    · split at h
      · simp at h
        exact Or.inl h.1.symm
      · dsimp only at h
        split at h
        · simp at h
        · simp at h
          exact Or.inr ⟨_, h.1.symm⟩

/-- C5 counterexample: with blacklist `["/a.txt"]`, an empty manifest and
the single remote file `/a.txt`, the href is blacklisted yet appears in
`entities_to_download` — the reconciler does not consult the blacklist, so
the claim as stated is false. -/
theorem claim_C5_counterexample :
    is_in_black_list ["/a.txt"] "/a.txt" = true ∧
    reconcile [ListEntity.File ⟨"/a.txt", 1⟩] [] =
      some [("/a.txt", Status.Server)] ∧
    ListEntity.File ⟨"/a.txt", 1⟩ ∈
      entities_to_download [ListEntity.File ⟨"/a.txt", 1⟩]
        [("/a.txt", Status.Server)] := by
  refine ⟨by decide, by decide, by decide⟩

/-- A blacklisted href is skipped before any network or filesystem action:
its manifest entry is untouched and no download is logged for it. -/
theorem apply_sync_blacklisted_unchanged (env : Env) (cfg : Config)
    (remote_dir : String) (h : Href)
    (hbl : is_in_black_list cfg.black_list h = true) :
    ∀ (es : List ListEntity) (m : Manifest),
      lookupA h (apply_sync env cfg remote_dir m es).manifest = lookupA h m ∧
      h ∉ (apply_sync env cfg remote_dir m es).downloads := by
  intro es
  induction es with
  | nil => intro m; simp [apply_sync]
  | cons e rest ih =>
    intro m
    cases e with
    | File file =>
      by_cases hb : is_in_black_list cfg.black_list file.href
      · simpa [apply_sync, hb] using ih m
      · have hne : file.href ≠ h := fun he => hb (he ▸ hbl)
        rcases hdl : download_file env cfg file remote_dir m with ⟨res, fetched⟩
        cases res with
        | error e' =>
          have happ : apply_sync env cfg remote_dir m (ListEntity.File file :: rest) =
              ⟨m, if fetched then [file.href] else [], [], some e'⟩ := by
            simp [apply_sync, hb, hdl]
          rw [happ]
          refine ⟨rfl, ?_⟩
          cases fetched
          · simp
          · simp
            exact fun he => hne he.symm
        | ok m' =>
          obtain ⟨entry, hentry⟩ := download_file_ok_manifest hdl
          have happ : apply_sync env cfg remote_dir m (ListEntity.File file :: rest) =
              (let r := apply_sync env cfg remote_dir m' rest
               ⟨r.manifest, (if fetched then [file.href] else []) ++ r.downloads,
                 r.mkdirs, r.err⟩) := by
            simp [apply_sync, hb, hdl]
          rw [happ]
          dsimp only
          obtain ⟨ihm, ihd⟩ := ih m'
          refine ⟨?_, ?_⟩
          · rw [ihm, hentry, lookupA_insertA_ne _ _ _ _ hne]
          · intro hmem
            rcases List.mem_append.mp hmem with hmm | hmm
            · cases fetched
              · simp at hmm
              · simp at hmm
                exact hne hmm.symm
            · exact ihd hmm
    | Folder folder =>
      by_cases hb : is_in_black_list cfg.black_list folder.href
      · simpa [apply_sync, hb] using ih m
      · have hne : folder.href ≠ h := fun he => hb (he ▸ hbl)
        cases hdl : create_dir env cfg folder remote_dir m with
        | error e' =>
          have happ : apply_sync env cfg remote_dir m (ListEntity.Folder folder :: rest) =
              ⟨m, [], [], some e'⟩ := by
            simp [apply_sync, hb, hdl]
          rw [happ]
          exact ⟨rfl, by simp⟩
        | ok pr =>
          rcases pr with ⟨m', created⟩
          have happ1 : (apply_sync env cfg remote_dir m
                (ListEntity.Folder folder :: rest)).manifest =
              (apply_sync env cfg remote_dir m' rest).manifest := by
            simp [apply_sync, hb, hdl]
          have happ2 : (apply_sync env cfg remote_dir m
                (ListEntity.Folder folder :: rest)).downloads =
              (apply_sync env cfg remote_dir m' rest).downloads := by
            simp [apply_sync, hb, hdl]
          rw [happ1, happ2]
          obtain ⟨ihm, ihd⟩ := ih m'
          refine ⟨?_, ihd⟩
          rcases create_dir_ok_manifest hdl with hm' | ⟨entry, hentry⟩
          · rw [ihm, hm']
          · rw [ihm, hentry, lookupA_insertA_ne _ _ _ _ hne]

/-- C9: loading the manifest treats an absent `.sync` as the empty
manifest (no error), and content that fails to deserialize as a fatal
deserialization error. -/
theorem claim_C9_load (parse : String → Option Manifest) :
    load_from_file parse .notFound = .ok [] ∧
    (∀ s, parse s = none → load_from_file parse (.content s) = .error .deser) := by
  exact ⟨rfl, fun s hs => by simp [load_from_file, hs]⟩

/-- C6: whichever step of a pass fails first — the retried listing, the
reconciliation (panic), the deletion pass, or fetch/apply — the pass stops
there, surfaces exactly that step's error, and `.sync` is never written;
when every step succeeds the write of the final manifest is attempted
exactly once, at the end. -/
theorem claim_C6_atomic_persist (env : Env) (cfg : Config) (fs : FS)
    (m₀ : Manifest) (remote_dir : String) :
    (∀ e, (ConnRetry.default.execute_with_retries env.listAttempt).1 = .error e →
      (sync env cfg fs m₀ remote_dir).writes = [] ∧
      (sync env cfg fs m₀ remote_dir).err = some e) ∧
    (∀ server_files,
      (ConnRetry.default.execute_with_retries env.listAttempt).1 = .ok server_files →
      reconcile server_files m₀ = none →
      (sync env cfg fs m₀ remote_dir).writes = [] ∧
      (sync env cfg fs m₀ remote_dir).err = some .crash) ∧
    (∀ server_files v e,
      (ConnRetry.default.execute_with_retries env.listAttempt).1 = .ok server_files →
      reconcile server_files m₀ = some v →
      (delete_locals fs m₀ (files_to_remove v)).err = some e →
      (sync env cfg fs m₀ remote_dir).writes = [] ∧
      (sync env cfg fs m₀ remote_dir).err = some e) ∧
    (∀ server_files v e,
      (ConnRetry.default.execute_with_retries env.listAttempt).1 = .ok server_files →
      reconcile server_files m₀ = some v →
      (delete_locals fs m₀ (files_to_remove v)).err = none →
      (apply_sync env cfg remote_dir
        (delete_locals fs m₀ (files_to_remove v)).manifest
        (entities_to_download server_files v)).err = some e →
      (sync env cfg fs m₀ remote_dir).writes = [] ∧
      (sync env cfg fs m₀ remote_dir).err = some e) ∧
    (∀ server_files v,
      (ConnRetry.default.execute_with_retries env.listAttempt).1 = .ok server_files →
      reconcile server_files m₀ = some v →
      (delete_locals fs m₀ (files_to_remove v)).err = none →
      (apply_sync env cfg remote_dir
        (delete_locals fs m₀ (files_to_remove v)).manifest
        (entities_to_download server_files v)).err = none →
      (sync env cfg fs m₀ remote_dir).writes =
        [(apply_sync env cfg remote_dir
          (delete_locals fs m₀ (files_to_remove v)).manifest
          (entities_to_download server_files v)).manifest] ∧
      (sync env cfg fs m₀ remote_dir).manifest =
        (apply_sync env cfg remote_dir
          (delete_locals fs m₀ (files_to_remove v)).manifest
          (entities_to_download server_files v)).manifest ∧
      ((sync env cfg fs m₀ remote_dir).err = none ↔
        ∃ u, env.save (apply_sync env cfg remote_dir
          (delete_locals fs m₀ (files_to_remove v)).manifest
          (entities_to_download server_files v)).manifest = .ok u)) := by
  refine ⟨?_, ?_, ?_, ?_, ?_⟩
  · intro e hl
    constructor <;> simp [sync, hl]
  · intro sf hl hr
    constructor <;> simp [sync, hl, hr]
  · intro sf v e hl hr hd
    constructor <;> simp [sync, hl, hr, hd]
  · intro sf v e hl hr hd ha
    constructor <;> simp [sync, hl, hr, hd, ha]
  · intro sf v hl hr hd ha
    cases hs : env.save (apply_sync env cfg remote_dir
        (delete_locals fs m₀ (files_to_remove v)).manifest
        (entities_to_download sf v)).manifest with
    | error e =>
      exact ⟨by simp [sync, hl, hr, hd, ha, hs],
        by simp [sync, hl, hr, hd, ha, hs],
        by simp [sync, hl, hr, hd, ha, hs]⟩
    | ok u =>
      exact ⟨by simp [sync, hl, hr, hd, ha, hs],
        by simp [sync, hl, hr, hd, ha, hs],
        by simp [sync, hl, hr, hd, ha, hs]⟩

/-- C5 (amended): a blacklisted href can appear in `entities_to_download`,
but the fetch/apply step skips every entity bearing it before any network
or filesystem action: no download is executed for it and its manifest
entry is never created or modified — this holds even when the pass aborts
on a later error. -/
theorem claim_C5_blacklist_containment (env : Env) (cfg : Config)
    (remote_dir : String) (h : Href)
    (hbl : is_in_black_list cfg.black_list h = true)
    (es : List ListEntity) (m : Manifest) :
    lookupA h (apply_sync env cfg remote_dir m es).manifest = lookupA h m ∧
    h ∉ (apply_sync env cfg remote_dir m es).downloads :=
  apply_sync_blacklisted_unchanged env cfg remote_dir h hbl es m

/-! ## Lemmas towards idempotence (C4) -/

theorem apply_sync_not_mem_unchanged (env : Env) (cfg : Config)
    (remote_dir : String) (h : Href) :
    ∀ (es : List ListEntity) (m : Manifest), h ∉ es.map ListEntity.href →
      lookupA h (apply_sync env cfg remote_dir m es).manifest = lookupA h m := by
  intro es
  induction es with
  | nil => intro m _; rfl
  | cons e rest ih =>
    intro m hh
    have hh1 : ListEntity.href e ≠ h := by
      intro he
      exact hh (by simp [he])
    have hh2 : h ∉ rest.map ListEntity.href := fun hc => hh (by simp [hc])
    cases e with
    | File file =>
      by_cases hb : is_in_black_list cfg.black_list file.href
      · rw [show apply_sync env cfg remote_dir m (ListEntity.File file :: rest) =
            apply_sync env cfg remote_dir m rest from by simp [apply_sync, hb]]
        exact ih m hh2
      · rcases hdl : download_file env cfg file remote_dir m with ⟨res, fetched⟩
        cases res with
        | error e' =>
          have happ : (apply_sync env cfg remote_dir m
              (ListEntity.File file :: rest)).manifest = m := by
            simp [apply_sync, hb, hdl]
          rw [happ]
        | ok m' =>
          obtain ⟨p, hp⟩ := download_file_ok_manifest hdl
          have happ : (apply_sync env cfg remote_dir m
              (ListEntity.File file :: rest)).manifest =
              (apply_sync env cfg remote_dir m' rest).manifest := by
            simp [apply_sync, hb, hdl]
          have hh1' : file.href ≠ h := hh1
          rw [happ, ih m' hh2, hp, lookupA_insertA_ne _ _ _ _ hh1']
    | Folder folder =>
      by_cases hb : is_in_black_list cfg.black_list folder.href
      · rw [show apply_sync env cfg remote_dir m (ListEntity.Folder folder :: rest) =
            apply_sync env cfg remote_dir m rest from by simp [apply_sync, hb]]
        exact ih m hh2
      · cases hdl : create_dir env cfg folder remote_dir m with
        | error e' =>
          have happ : (apply_sync env cfg remote_dir m
              (ListEntity.Folder folder :: rest)).manifest = m := by
            simp [apply_sync, hb, hdl]
          rw [happ]
        | ok pr =>
          rcases pr with ⟨m', created⟩
          have happ : (apply_sync env cfg remote_dir m
              (ListEntity.Folder folder :: rest)).manifest =
              (apply_sync env cfg remote_dir m' rest).manifest := by
            simp [apply_sync, hb, hdl]
          have hh1' : folder.href ≠ h := hh1
          rw [happ, ih m' hh2]
          rcases create_dir_ok_manifest hdl with hm' | ⟨entry, hentry⟩
          · rw [hm']
          · rw [hentry, lookupA_insertA_ne _ _ _ _ hh1']

theorem apply_sync_nodup_keys (env : Env) (cfg : Config) (remote_dir : String) :
    ∀ (es : List ListEntity) (m : Manifest), NodupKeys m →
      NodupKeys (apply_sync env cfg remote_dir m es).manifest := by
  intro es
  induction es with
  | nil => intro m hm; exact hm
  | cons e rest ih =>
    intro m hm
    cases e with
    | File file =>
      by_cases hb : is_in_black_list cfg.black_list file.href
      · rw [show apply_sync env cfg remote_dir m (ListEntity.File file :: rest) =
            apply_sync env cfg remote_dir m rest from by simp [apply_sync, hb]]
        exact ih m hm
      · rcases hdl : download_file env cfg file remote_dir m with ⟨res, fetched⟩
        cases res with
        | error e' =>
          have happ : (apply_sync env cfg remote_dir m
              (ListEntity.File file :: rest)).manifest = m := by
            simp [apply_sync, hb, hdl]
          rw [happ]
          exact hm
        | ok m' =>
          obtain ⟨p, hp⟩ := download_file_ok_manifest hdl
          have happ : (apply_sync env cfg remote_dir m
              (ListEntity.File file :: rest)).manifest =
              (apply_sync env cfg remote_dir m' rest).manifest := by
            simp [apply_sync, hb, hdl]
          rw [happ]
          exact ih m' (hp ▸ nodupKeys_insertA _ _ _ hm)
    | Folder folder =>
      by_cases hb : is_in_black_list cfg.black_list folder.href
      · rw [show apply_sync env cfg remote_dir m (ListEntity.Folder folder :: rest) =
            apply_sync env cfg remote_dir m rest from by simp [apply_sync, hb]]
        exact ih m hm
      · cases hdl : create_dir env cfg folder remote_dir m with
        | error e' =>
          have happ : (apply_sync env cfg remote_dir m
              (ListEntity.Folder folder :: rest)).manifest = m := by
            simp [apply_sync, hb, hdl]
          rw [happ]
          exact hm
        | ok pr =>
          rcases pr with ⟨m', created⟩
          have happ : (apply_sync env cfg remote_dir m
              (ListEntity.Folder folder :: rest)).manifest =
              (apply_sync env cfg remote_dir m' rest).manifest := by
            simp [apply_sync, hb, hdl]
          rw [happ]
          rcases create_dir_ok_manifest hdl with hm' | ⟨entry, hentry⟩
          · exact ih m' (hm' ▸ hm)
          · exact ih m' (hentry ▸ nodupKeys_insertA _ _ _ hm)

theorem delete_locals_nodup_keys (td : List Href) :
    ∀ (fs : FS) (m : Manifest), NodupKeys m →
      NodupKeys (delete_locals fs m td).manifest := by
  induction td with
  | nil => intro fs m hm; exact hm
  | cons href rest ih =>
    intro fs m hm
    cases hfile : lookupA href m with
    | none =>
      have : (delete_locals fs m (href :: rest)).manifest = m := by
        simp [delete_locals, hfile]
      rw [this]
      exact hm
    | some file =>
      have hm' := nodupKeys_removeA href m hm
      by_cases hdir : file.path ∈ fs.dirs
      · rw [delete_locals_cons_dir hfile hdir (removeDirAll_ok hdir)]
        exact ih _ _ hm'
      · by_cases hf : file.path ∈ fs.files
        · rw [delete_locals_cons_file hfile hdir hf (removeFile_ok hf)]
          exact ih _ _ hm'
        · rw [delete_locals_cons_skip hfile hdir hf]
          exact ih _ _ hm'

theorem mem_entities_to_download {entities : List ListEntity}
    {v : List (Href × Status)} {e : ListEntity} :
    e ∈ entities_to_download entities v ↔
      e ∈ entities ∧ (files_to_download v).contains e.href = true := by
  unfold entities_to_download
  exact List.mem_filter

theorem entities_to_download_href_nodup {entities : List ListEntity}
    {v : List (Href × Status)} (hne : (entities.map ListEntity.href).Nodup) :
    ((entities_to_download entities v).map ListEntity.href).Nodup :=
  List.Nodup.sublist ((List.filter_sublist entities).map ListEntity.href) hne

theorem mem_href_entities_to_download {entities : List ListEntity}
    {v : List (Href × Status)} {h : Href}
    (hh : h ∈ (entities_to_download entities v).map ListEntity.href) :
    h ∈ entities.map ListEntity.href :=
  ((List.filter_sublist entities).map ListEntity.href).mem hh

theorem files_to_remove_eq_nil {v : List (Href × Status)}
    (h : ∀ p, p ∈ v → p.2 ≠ Status.Local) : files_to_remove v = [] := by
  unfold files_to_remove
  have : v.filter (fun p => p.2 = Status.Local) = [] := by
    rw [List.filter_eq_nil]
    intro p hp
    simpa using h p hp
  rw [this]
  rfl

theorem apply_sync_file_downloaded (env : Env) (cfg : Config)
    (remote_dir : String) :
    ∀ (es : List ListEntity) (m : Manifest),
      (es.map ListEntity.href).Nodup →
      (apply_sync env cfg remote_dir m es).err = none →
      ∀ f : ListFile, ListEntity.File f ∈ es →
        is_in_black_list cfg.black_list f.href = false →
        ∃ p, lookupA f.href (apply_sync env cfg remote_dir m es).manifest =
          some ⟨p, false, some f.last_modified⟩ := by
  intro es
  induction es with
  | nil => intro m _ _ f hf; simp at hf
  | cons e rest ih =>
    intro m hnd herr f hf hbl
    rw [List.map_cons] at hnd
    obtain ⟨hh, hnd'⟩ := List.nodup_cons.mp hnd
    rcases List.mem_cons.mp hf with hcase | hcase
    · subst hcase
      rcases hdl : download_file env cfg f remote_dir m with ⟨res, fetched⟩
      cases res with
      | error e' =>
        exfalso
        have : (apply_sync env cfg remote_dir m
            (ListEntity.File f :: rest)).err = some e' := by
          simp [apply_sync, hbl, hdl]
        rw [this] at herr
        simp at herr
      | ok m' =>
        obtain ⟨p, hp⟩ := download_file_ok_manifest hdl
        have happ : (apply_sync env cfg remote_dir m
            (ListEntity.File f :: rest)).manifest =
            (apply_sync env cfg remote_dir m' rest).manifest := by
          simp [apply_sync, hbl, hdl]
        refine ⟨p, ?_⟩
        rw [happ,
          apply_sync_not_mem_unchanged env cfg remote_dir f.href rest m' hh,
          hp, lookupA_insertA_self]
    · have hfr : f.href ∈ rest.map ListEntity.href :=
        List.mem_map_of_mem ListEntity.href hcase
      cases e with
      | File file =>
        by_cases hb : is_in_black_list cfg.black_list file.href
        · have happ : apply_sync env cfg remote_dir m
              (ListEntity.File file :: rest) =
              apply_sync env cfg remote_dir m rest := by
            simp [apply_sync, hb]
          rw [happ] at herr ⊢
          exact ih m hnd' herr f hcase hbl
        · rcases hdl : download_file env cfg file remote_dir m with ⟨res, fetched⟩
          cases res with
          | error e' =>
            exfalso
            have : (apply_sync env cfg remote_dir m
                (ListEntity.File file :: rest)).err = some e' := by
              simp [apply_sync, hb, hdl]
            rw [this] at herr
            simp at herr
          | ok m' =>
            have happm : (apply_sync env cfg remote_dir m
                (ListEntity.File file :: rest)).manifest =
                (apply_sync env cfg remote_dir m' rest).manifest := by
              simp [apply_sync, hb, hdl]
            have happe : (apply_sync env cfg remote_dir m
                (ListEntity.File file :: rest)).err =
                (apply_sync env cfg remote_dir m' rest).err := by
              simp [apply_sync, hb, hdl]
            rw [happe] at herr
            rw [happm]
            exact ih m' hnd' herr f hcase hbl
      | Folder folder =>
        by_cases hb : is_in_black_list cfg.black_list folder.href
        · have happ : apply_sync env cfg remote_dir m
              (ListEntity.Folder folder :: rest) =
              apply_sync env cfg remote_dir m rest := by
            simp [apply_sync, hb]
          rw [happ] at herr ⊢
          exact ih m hnd' herr f hcase hbl
        · cases hdl : create_dir env cfg folder remote_dir m with
          | error e' =>
            exfalso
            have : (apply_sync env cfg remote_dir m
                (ListEntity.Folder folder :: rest)).err = some e' := by
              simp [apply_sync, hb, hdl]
            rw [this] at herr
            simp at herr
          | ok pr =>
            rcases pr with ⟨m', created⟩
            have happm : (apply_sync env cfg remote_dir m
                (ListEntity.Folder folder :: rest)).manifest =
                (apply_sync env cfg remote_dir m' rest).manifest := by
              simp [apply_sync, hb, hdl]
            have happe : (apply_sync env cfg remote_dir m
                (ListEntity.Folder folder :: rest)).err =
                (apply_sync env cfg remote_dir m' rest).err := by
              simp [apply_sync, hb, hdl]
            rw [happe] at herr
            rw [happm]
            exact ih m' hnd' herr f hcase hbl

theorem apply_sync_no_file_downloads (env : Env) (cfg : Config)
    (remote_dir : String) :
    ∀ (es : List ListEntity) (m : Manifest),
      (∀ e, e ∈ es → (∃ fo, e = ListEntity.Folder fo) ∨
        is_in_black_list cfg.black_list (ListEntity.href e) = true) →
      (apply_sync env cfg remote_dir m es).downloads = [] := by
  intro es
  induction es with
  | nil => intro m _; rfl
  | cons e rest ih =>
    intro m hall
    have hrest : ∀ e', e' ∈ rest → (∃ fo, e' = ListEntity.Folder fo) ∨
        is_in_black_list cfg.black_list (ListEntity.href e') = true := by
      intro e' he'
      exact hall e' (List.mem_cons_of_mem _ he')
    cases e with
    | File file =>
      have hb : is_in_black_list cfg.black_list file.href = true := by
        rcases hall (ListEntity.File file) (List.mem_cons_self _ _) with ⟨fo, hfo⟩ | hb
        · cases hfo
        · exact hb
      have happ : apply_sync env cfg remote_dir m (ListEntity.File file :: rest) =
          apply_sync env cfg remote_dir m rest := by
        simp [apply_sync, hb]
      rw [happ]
      exact ih m hrest
    | Folder folder =>
      by_cases hb : is_in_black_list cfg.black_list folder.href
      · have happ : apply_sync env cfg remote_dir m (ListEntity.Folder folder :: rest) =
            apply_sync env cfg remote_dir m rest := by
          simp [apply_sync, hb]
        rw [happ]
        exact ih m hrest
      · cases hdl : create_dir env cfg folder remote_dir m with
        | error e' =>
          have : (apply_sync env cfg remote_dir m
              (ListEntity.Folder folder :: rest)).downloads = [] := by
            simp [apply_sync, hb, hdl]
          exact this
        | ok pr =>
          rcases pr with ⟨m', created⟩
          have : (apply_sync env cfg remote_dir m
              (ListEntity.Folder folder :: rest)).downloads =
              (apply_sync env cfg remote_dir m' rest).downloads := by
            simp [apply_sync, hb, hdl]
          rw [this]
          exact ih m' hrest

theorem serverLoop_some (localv : Manifest) :
    ∀ (rem : List (Href × ListEntity)) (acc : List (Href × Status)),
      NodupKeys rem →
      (∀ h, h ∈ keysA rem →
        lookupA h acc = if h ∈ keysA localv then some Status.Local else none) →
      (∀ h f lf, lookupA h rem = some (ListEntity.File f) →
        lookupA h localv = some lf → lf.last_modified ≠ none) →
      ∃ v, serverLoop localv acc rem = some v := by
  intro rem
  induction rem with
  | nil => intro acc _ _ _; exact ⟨acc, rfl⟩
  | cons entry rest ih =>
    obtain ⟨h₀, e₀⟩ := entry
    intro acc hrem hinv hok
    obtain ⟨hh₀, hrest⟩ := nodupKeys_cons.mp hrem
    have hstep : ∃ s₀, stepServer localv acc (h₀, e₀) = some (insertA h₀ s₀ acc) := by
      have hl := hinv h₀ (by simp)
      by_cases hmem : h₀ ∈ keysA localv
      · rw [if_pos hmem] at hl
        obtain ⟨lf, hlf⟩ := lookupA_isSome_of_mem_keys hmem
        cases e₀ with
        | Folder fo => exact ⟨Status.Sync, by simp [stepServer, hl, hlf]⟩
        | File f =>
          cases hlm : lf.last_modified with
          | none =>
            exfalso
            exact hok h₀ f lf (by simp) hlf hlm
          | some t =>
            refine ⟨if f.last_modified ≠ t then Status.OutOfDate else Status.Sync, ?_⟩
            by_cases hft : f.last_modified = t <;>
              simp [stepServer, hl, hlf, hlm, hft]
      · rw [if_neg hmem] at hl
        exact ⟨Status.Server, by simp [stepServer, hl]⟩
    obtain ⟨s₀, hss⟩ := hstep
    have hinv' : ∀ h, h ∈ keysA rest →
        lookupA h (insertA h₀ s₀ acc) =
          if h ∈ keysA localv then some Status.Local else none := by
      intro h hh
      have hne : h₀ ≠ h := fun he => hh₀ (he ▸ hh)
      rw [lookupA_insertA_ne _ _ _ _ hne]
      exact hinv h (by simp [hh])
    have hok' : ∀ h f lf, lookupA h rest = some (ListEntity.File f) →
        lookupA h localv = some lf → lf.last_modified ≠ none := by
      intro h f lf hlr hll
      refine hok h f lf ?_ hll
      have hne : h₀ ≠ h := by
        intro he
        subst he
        exact hh₀ (mem_keys_of_lookupA hlr)
      simpa [hne] using hlr
    obtain ⟨v, hv⟩ := ih (insertA h₀ s₀ acc) hrest hinv' hok'
    refine ⟨v, ?_⟩
    simpa [serverLoop, hss] using hv

theorem reconcile_some (entities : List ListEntity) (localv : Manifest)
    (hok : ∀ h f lf,
      lookupA h (ServerVersion.from_entities entities) = some (ListEntity.File f) →
      lookupA h localv = some lf → lf.last_modified ≠ none) :
    ∃ v, reconcile entities localv = some v := by
  have hinv : ∀ h, h ∈ keysA (ServerVersion.from_entities entities) →
      lookupA h (seedStatuses localv) =
        if h ∈ keysA localv then some Status.Local else none := by
    intro h _
    rw [lookupA_seedStatuses]
    by_cases hm : h ∈ keysA localv
    · obtain ⟨lf, hlf⟩ := lookupA_isSome_of_mem_keys hm
      simp [hlf, hm]
    · simp [lookupA_eq_none_iff.mpr hm, hm]
  exact serverLoop_some localv (ServerVersion.from_entities entities)
    (seedStatuses localv) (nodupKeys_from_entities entities) hinv hok

/-- C4: idempotence of a pass.  After a successful pass — the
reconciliation completed, the deletion loop ran on its remove set, and the
fetch/apply step finished without error — reconciling the unchanged
listing against the resulting manifest succeeds again, its remove set is
empty (so the deletion pass performs zero filesystem deletions), and the
fetch/apply step of the second pass executes zero file fetches, under any
environment. -/
theorem claim_C4_second_pass_idle (env env₂ : Env) (cfg : Config)
    (remote_dir : String) (fs : FS) (m₀ : Manifest)
    (entities : List ListEntity) (v₁ : List (Href × Status))
    (hne : (entities.map ListEntity.href).Nodup)
    (hm0 : NodupKeys m₀)
    (hrec1 : reconcile entities m₀ = some v₁)
    (hap : (apply_sync env cfg remote_dir
      (delete_locals fs m₀ (files_to_remove v₁)).manifest
      (entities_to_download entities v₁)).err = none) :
    ∃ v₂, reconcile entities
        (apply_sync env cfg remote_dir
          (delete_locals fs m₀ (files_to_remove v₁)).manifest
          (entities_to_download entities v₁)).manifest = some v₂ ∧
      files_to_remove v₂ = [] ∧
      (∀ fs₂ : FS,
        (delete_locals fs₂ (apply_sync env cfg remote_dir
          (delete_locals fs m₀ (files_to_remove v₁)).manifest
          (entities_to_download entities v₁)).manifest
          (files_to_remove v₂)).removedFiles = [] ∧
        (delete_locals fs₂ (apply_sync env cfg remote_dir
          (delete_locals fs m₀ (files_to_remove v₁)).manifest
          (entities_to_download entities v₁)).manifest
          (files_to_remove v₂)).removedDirs = []) ∧
      (apply_sync env₂ cfg remote_dir
        (apply_sync env cfg remote_dir
          (delete_locals fs m₀ (files_to_remove v₁)).manifest
          (entities_to_download entities v₁)).manifest
        (entities_to_download entities v₂)).downloads = [] := by
  obtain ⟨hnv₁, hout₁, hin₁⟩ := reconcile_char entities m₀ hm0 v₁ hrec1
  set delr := delete_locals fs m₀ (files_to_remove v₁) with hdelr
  have hdel_err : delr.err = none :=
    delete_locals_ok _ fs m₀ hm0 (files_to_remove_nodup hnv₁)
      (files_to_remove_subset_keys entities m₀ hm0 v₁ hrec1)
  have hdelm : ∀ h, lookupA h delr.manifest =
      if h ∈ files_to_remove v₁ then none else lookupA h m₀ :=
    delete_locals_manifest _ fs m₀ hm0 hdel_err
  have hdeln : NodupKeys delr.manifest := delete_locals_nodup_keys _ fs m₀ hm0
  set es₁ := entities_to_download entities v₁ with hes₁def
  set ap := apply_sync env cfg remote_dir delr.manifest es₁ with hapdef
  have hes₁nd : (es₁.map ListEntity.href).Nodup :=
    entities_to_download_href_nodup hne
  have hm₁n : NodupKeys ap.manifest :=
    apply_sync_nodup_keys env cfg remote_dir es₁ delr.manifest hdeln
  have hmem_es₁ : ∀ e : ListEntity, e ∈ es₁ ↔ e ∈ entities ∧
      ∃ s, lookupA (ListEntity.href e) v₁ = some s ∧ s ≠ Status.Sync := by
    intro e
    rw [hes₁def, mem_entities_to_download]
    constructor
    · rintro ⟨he, hc⟩
      exact ⟨he, (mem_files_to_download hnv₁ _).mp (contains_iff_mem.mp hc)⟩
    · rintro ⟨he, hs⟩
      exact ⟨he, contains_iff_mem.mpr ((mem_files_to_download hnv₁ _).mpr hs)⟩
  have hG : ∀ f : ListFile, ListEntity.File f ∈ entities →
      is_in_black_list cfg.black_list f.href = false →
      ∃ lf, lookupA f.href ap.manifest = some lf ∧
        lf.last_modified = some f.last_modified := by
    intro f hf hbl
    have hsrv := lookup_from_entities_of_nodup hne hf
    obtain ⟨s₁, hes, hls⟩ := hin₁ f.href (ListEntity.File f) hsrv
    by_cases hs₁ : s₁ = Status.Sync
    · subst hs₁
      have hnotin : f.href ∉ es₁.map ListEntity.href := by
        intro hc
        rw [List.mem_map] at hc
        obtain ⟨e', he'es₁, he'href⟩ := hc
        obtain ⟨_, s', hls', hs'⟩ := (hmem_es₁ e').mp he'es₁
        rw [he'href, hls] at hls'
        exact hs' (Option.some_injective _ hls'.symm)
      have h1 : lookupA f.href ap.manifest = lookupA f.href delr.manifest :=
        apply_sync_not_mem_unchanged env cfg remote_dir f.href es₁
          delr.manifest hnotin
      have hnotrem : f.href ∉ files_to_remove v₁ := by
        rw [mem_files_to_remove hnv₁, hls]
        simp
      have h2 : lookupA f.href delr.manifest = lookupA f.href m₀ := by
        rw [hdelm]
        simp [hnotrem]
      cases hlf : lookupA f.href m₀ with
      | none => simp [entryStatus, hlf] at hes
      | some lf =>
        cases hlm : lf.last_modified with
        | none => simp [entryStatus, hlf, hlm] at hes
        | some t =>
          by_cases hft : f.last_modified = t
          · exact ⟨lf, by rw [h1, h2, hlf], by rw [hlm, hft]⟩
          · simp [entryStatus, hlf, hlm, hft] at hes
    · have hmem : ListEntity.File f ∈ es₁ := (hmem_es₁ _).mpr ⟨hf, s₁, hls, hs₁⟩
      obtain ⟨p, hp⟩ := apply_sync_file_downloaded env cfg remote_dir es₁
        delr.manifest hes₁nd hap f hmem hbl
      exact ⟨⟨p, false, some f.last_modified⟩, hp, rfl⟩
  have hok₂ : ∀ h f lf,
      lookupA h (ServerVersion.from_entities entities) = some (ListEntity.File f) →
      lookupA h ap.manifest = some lf → lf.last_modified ≠ none := by
    intro h f lf hsrv hlf
    obtain ⟨hfin, hfhr⟩ := lookup_from_entities_mem hsrv
    have hfhr' : f.href = h := hfhr
    by_cases hbl : is_in_black_list cfg.black_list f.href
    · have h1 : lookupA h ap.manifest = lookupA h delr.manifest :=
        (apply_sync_blacklisted_unchanged env cfg remote_dir h
          (by rw [← hfhr']; exact hbl) es₁ delr.manifest).1
      rw [h1, hdelm] at hlf
      by_cases hrem : h ∈ files_to_remove v₁
      · simp [hrem] at hlf
      · simp [hrem] at hlf
        obtain ⟨s₁, hes, _⟩ := hin₁ h (ListEntity.File f) hsrv
        cases hlm : lf.last_modified with
        | none => simp [entryStatus, hlf, hlm] at hes
        | some t => simp
    · obtain ⟨lf', hlf', hlm'⟩ := hG f hfin (Bool.not_eq_true _ ▸ eq_false_of_ne_true hbl)
      rw [← hfhr'] at hlf
      rw [hlf'] at hlf
      have heq : lf' = lf := Option.some_injective _ hlf
      rw [← heq, hlm']
      simp
  obtain ⟨v₂, hrec2⟩ := reconcile_some entities ap.manifest hok₂
  obtain ⟨hnv₂, hout₂, hin₂⟩ := reconcile_char entities ap.manifest hm₁n v₂ hrec2
  have hkeys₁ : ∀ h, h ∈ keysA ap.manifest → h ∈ entities.map ListEntity.href := by
    intro h hk
    by_contra hnh
    have hnotes₁ : h ∉ es₁.map ListEntity.href := fun hc =>
      hnh (mem_href_entities_to_download (hes₁def ▸ hc))
    have h1 : lookupA h ap.manifest = lookupA h delr.manifest :=
      apply_sync_not_mem_unchanged env cfg remote_dir h es₁ delr.manifest hnotes₁
    obtain ⟨lf, hlf⟩ := lookupA_isSome_of_mem_keys hk
    rw [h1, hdelm] at hlf
    by_cases hrem : h ∈ files_to_remove v₁
    · simp [hrem] at hlf
    · simp [hrem] at hlf
      have hloc := hout₁ h hnh
      rw [hlf] at hloc
      have : h ∈ files_to_remove v₁ :=
        (mem_files_to_remove hnv₁ h).mpr (by rw [hloc]; rfl)
      exact hrem this
  have hfr₂ : files_to_remove v₂ = [] := by
    refine files_to_remove_eq_nil ?_
    rintro ⟨h, s⟩ hp hs
    simp at hs
    subst hs
    have hls₂ : lookupA h v₂ = some Status.Local := mem_lookupA_of_nodup hnv₂ hp
    by_cases hsrv : h ∈ entities.map ListEntity.href
    · obtain ⟨e, he⟩ := lookupA_isSome_of_mem_keys
        ((mem_keys_from_entities _ h).mpr hsrv)
      obtain ⟨s', hes', hls'⟩ := hin₂ h e he
      rw [hls₂] at hls'
      exact entryStatus_ne_local hes' (Option.some_injective _ hls'.symm)
    · have hloc := hout₂ h hsrv
      rw [hls₂] at hloc
      cases hl1 : lookupA h ap.manifest with
      | none => rw [hl1] at hloc; simp at hloc
      | some lf => exact hsrv (hkeys₁ h (mem_keys_of_lookupA hl1))
  refine ⟨v₂, hrec2, hfr₂, fun fs₂ => by rw [hfr₂]; exact ⟨rfl, rfl⟩, ?_⟩
  refine apply_sync_no_file_downloads env₂ cfg remote_dir _ ap.manifest ?_
  intro e he
  cases e with
  | Folder fo => exact Or.inl ⟨fo, rfl⟩
  | File f =>
    by_cases hbl : is_in_black_list cfg.black_list f.href
    · exact Or.inr hbl
    · exfalso
      rw [mem_entities_to_download] at he
      obtain ⟨hent, hc⟩ := he
      obtain ⟨s₂, hls₂, hs₂⟩ :=
        (mem_files_to_download hnv₂ _).mp (contains_iff_mem.mp hc)
      obtain ⟨lf, hlf, hlm⟩ := hG f hent (Bool.not_eq_true _ ▸ eq_false_of_ne_true hbl)
      have hsrv := lookup_from_entities_of_nodup hne hent
      obtain ⟨s', hes', hls'⟩ := hin₂ f.href (ListEntity.File f) hsrv
      have hsync : s' = Status.Sync := by
        simp [entryStatus, hlf, hlm] at hes'
        exact hes'.symm
      subst hsync
      have hls₂' : lookupA f.href v₂ = some s₂ := hls₂
      rw [hls'] at hls₂'
      exact hs₂ (Option.some_injective _ hls₂'.symm)

/-! ## Concrete witnesses -/

theorem claim_C2_partition_witness :
    NodupKeys [("/a", (⟨["out", "a"], false, some 1⟩ : LocalFile))] ∧
    reconcile [ListEntity.File ⟨"/b", 2⟩]
        [("/a", (⟨["out", "a"], false, some 1⟩ : LocalFile))] =
      some [("/a", Status.Local), ("/b", Status.Server)] ∧
    (∀ h : Href,
      (h ∈ keysA [("/a", (⟨["out", "a"], false, some 1⟩ : LocalFile))] ∨
        h ∈ [ListEntity.File ⟨"/b", 2⟩].map ListEntity.href) ↔
      ∃! s : Status, (h, s) ∈ [("/a", Status.Local), ("/b", Status.Server)]) :=
  ⟨by decide, by decide,
    claim_C2_partition [ListEntity.File ⟨"/b", 2⟩]
      [("/a", ⟨["out", "a"], false, some 1⟩)] (by decide)
      [("/a", Status.Local), ("/b", Status.Server)] (by decide)⟩

theorem claim_C3_downloads_witness :
    NodupKeys [("/a.txt", (⟨["out", "a.txt"], false, some 1⟩ : LocalFile))] ∧
    reconcile [ListEntity.File ⟨"/a.txt", 2⟩]
        [("/a.txt", (⟨["out", "a.txt"], false, some 1⟩ : LocalFile))] =
      some [("/a.txt", Status.OutOfDate)] ∧
    ((entities_to_download [ListEntity.File ⟨"/a.txt", 2⟩]
        [("/a.txt", Status.OutOfDate)] =
      [ListEntity.File ⟨"/a.txt", 2⟩].filter (fun e =>
        decide (lookupA e.href [("/a.txt", Status.OutOfDate)] = some Status.Server ∨
          lookupA e.href [("/a.txt", Status.OutOfDate)] = some Status.OutOfDate))) ∧
    (∀ h lf fl t1,
      lookupA h [("/a.txt", (⟨["out", "a.txt"], false, some 1⟩ : LocalFile))] = some lf →
      LocalFile.last_modified lf = some t1 →
      lookupA h (ServerVersion.from_entities [ListEntity.File ⟨"/a.txt", 2⟩]) =
        some (ListEntity.File fl) →
      ListFile.last_modified fl ≠ t1 →
      lookupA h [("/a.txt", Status.OutOfDate)] = some Status.OutOfDate ∧
      (∀ e, e ∈ [ListEntity.File ⟨"/a.txt", 2⟩] → ListEntity.href e = h →
        e ∈ entities_to_download [ListEntity.File ⟨"/a.txt", 2⟩]
          [("/a.txt", Status.OutOfDate)]) ∧
      h ∉ files_to_remove [("/a.txt", Status.OutOfDate)])) :=
  ⟨by decide, by decide,
    claim_C3_downloads [ListEntity.File ⟨"/a.txt", 2⟩]
      [("/a.txt", ⟨["out", "a.txt"], false, some 1⟩)] (by decide)
      [("/a.txt", Status.OutOfDate)] (by decide)⟩

theorem claim_C7_pops_succeed_witness :
    NodupKeys [("/old.txt", (⟨["out", "old.txt"], false, some 1⟩ : LocalFile))] ∧
    reconcile [] [("/old.txt", (⟨["out", "old.txt"], false, some 1⟩ : LocalFile))] =
      some [("/old.txt", Status.Local)] ∧
    ((∀ h, h ∈ files_to_remove [("/old.txt", Status.Local)] →
        ∃ lf, lookupA h
          [("/old.txt", (⟨["out", "old.txt"], false, some 1⟩ : LocalFile))] = some lf) ∧
      (∀ fs : FS, (delete_locals fs
        [("/old.txt", (⟨["out", "old.txt"], false, some 1⟩ : LocalFile))]
        (files_to_remove [("/old.txt", Status.Local)])).err = none)) :=
  ⟨by decide, by decide,
    claim_C7_pops_succeed []
      [("/old.txt", ⟨["out", "old.txt"], false, some 1⟩)] (by decide)
      [("/old.txt", Status.Local)] (by decide)⟩

theorem claim_C10_type_change_panics_witness :
    NodupKeys [("/d/", (⟨["d"], true, none⟩ : LocalFile))] ∧
    ([ListEntity.File ⟨"/d/", 5⟩].map ListEntity.href).Nodup ∧
    ListEntity.File ⟨"/d/", 5⟩ ∈ [ListEntity.File ⟨"/d/", 5⟩] ∧
    lookupA "/d/" [("/d/", (⟨["d"], true, none⟩ : LocalFile))] =
      some ⟨["d"], true, none⟩ ∧
    LocalFile.last_modified ⟨["d"], true, none⟩ = none ∧
    reconcile [ListEntity.File ⟨"/d/", 5⟩]
      [("/d/", (⟨["d"], true, none⟩ : LocalFile))] = none :=
  ⟨by decide, by decide, by decide, by decide, rfl,
    claim_C10_type_change_panics [ListEntity.File ⟨"/d/", 5⟩]
      [("/d/", ⟨["d"], true, none⟩)] (by decide) (by decide)
      ⟨"/d/", 5⟩ (by decide) ⟨["d"], true, none⟩ (by decide) rfl⟩

theorem claim_C5_blacklist_containment_witness :
    is_in_black_list ["/x"] "/x" = true ∧
    lookupA "/x" (apply_sync
      ⟨fun _ => some "", fun _ => .ok [], fun _ _ => .ok (), fun _ => .ok (),
        fun _ => .ok (), fun _ => .ok ()⟩
      ⟨"http://h", "", ["out"], ["/x"]⟩ "/r/" []
      [ListEntity.File ⟨"/x", 1⟩]).manifest = lookupA "/x" ([] : Manifest) ∧
    "/x" ∉ (apply_sync
      ⟨fun _ => some "", fun _ => .ok [], fun _ _ => .ok (), fun _ => .ok (),
        fun _ => .ok (), fun _ => .ok ()⟩
      ⟨"http://h", "", ["out"], ["/x"]⟩ "/r/" []
      [ListEntity.File ⟨"/x", 1⟩]).downloads := by
  have h := claim_C5_blacklist_containment
    ⟨fun _ => some "", fun _ => .ok [], fun _ _ => .ok (), fun _ => .ok (),
      fun _ => .ok (), fun _ => .ok ()⟩
    ⟨"http://h", "", ["out"], ["/x"]⟩ "/r/" "/x" (by decide)
    [ListEntity.File ⟨"/x", 1⟩] []
  exact ⟨by decide, h.1, h.2⟩

theorem claim_C6_atomic_persist_witness :
    (ConnRetry.default.execute_with_retries
      (Env.listAttempt ⟨fun _ => some "", fun _ => .error (.external 7),
        fun _ _ => .ok (), fun _ => .ok (), fun _ => .ok (), fun _ => .ok ()⟩)).1 =
      .error (.external 7) ∧
    ((sync ⟨fun _ => some "", fun _ => .error (.external 7), fun _ _ => .ok (),
        fun _ => .ok (), fun _ => .ok (), fun _ => .ok ()⟩
      ⟨"http://h", "", ["out"], []⟩ ⟨[], []⟩ [] "/r/").writes = [] ∧
    (sync ⟨fun _ => some "", fun _ => .error (.external 7), fun _ _ => .ok (),
        fun _ => .ok (), fun _ => .ok (), fun _ => .ok ()⟩
      ⟨"http://h", "", ["out"], []⟩ ⟨[], []⟩ [] "/r/").err =
      some (.external 7)) := by
  have h := (claim_C6_atomic_persist
    ⟨fun _ => some "", fun _ => .error (.external 7), fun _ _ => .ok (),
      fun _ => .ok (), fun _ => .ok (), fun _ => .ok ()⟩
    ⟨"http://h", "", ["out"], []⟩ ⟨[], []⟩ [] "/r/").1 (.external 7) (by decide)
  exact ⟨by decide, h⟩

theorem claim_C8_retry_witness :
    ((1 : Nat) < 3 ∧
      (fun n => if n = 0 then (Except.error 0 : Except Nat Nat) else .ok 5) 1 = .ok 5) ∧
    (ConnRetry.default.execute_with_retries
      (fun n => if n = 0 then (Except.error 0 : Except Nat Nat) else .ok 5)).1 =
      .ok 5 ∧
    (ConnRetry.default.execute_with_retries
      (fun n => if n = 0 then (Except.error 0 : Except Nat Nat) else .ok 5)).2 =
      List.replicate 1 250 := by
  have h := (claim_C8_retry
      (fun n => if n = 0 then (Except.error 0 : Except Nat Nat) else .ok 5)).1
    1 5 (by omega) (by decide) (fun j hj => ⟨0, by
      have hj0 : j = 0 := by omega
      simp [hj0]⟩)
  exact ⟨⟨by omega, by decide⟩, h.1, h.2⟩

theorem claim_C9_load_witness :
    load_from_file (fun _ => none) SyncFileState.notFound = .ok [] ∧
    (fun _ => (none : Option Manifest)) "x" = none ∧
    load_from_file (fun _ => none) (SyncFileState.content "x") = .error .deser := by
  have h := claim_C9_load (fun _ => none)
  exact ⟨h.1, rfl, h.2 "x" rfl⟩

theorem claim_C1_no_double_delete_witness :
    (lookupA "/d/" ([("/d/", ["d"])] : MainManifest) = some ["d"] ∧
     (["d"] : FsPath) ∈ (FS.mk [["d"]] [["d", "a"]]).dirs ∧
     removeDirAll (FS.mk [["d"]] [["d", "a"]]) ["d"] = .ok (FS.mk [] []) ∧
     delete_locals_hist (FS.mk [["d"]] [["d", "a"]]) [("/d/", ["d"])] [] ["/d/"] =
       (let r := delete_locals_hist (FS.mk [] [])
           (removeA "/d/" [("/d/", ["d"])]) ([] ++ [(["d"] : FsPath)]) []
        ⟨r.fs, r.manifest, r.folders_to_delete, r.removedFiles,
          ["d"] :: r.removedDirs, r.err⟩)) ∧
    (lookupA "/d/a" ([("/d/a", ["d", "a"])] : MainManifest) = some ["d", "a"] ∧
     (["d", "a"] : FsPath) ∉ (FS.mk [] [["x"]]).dirs ∧
     (∃ d ∈ [(["d"] : FsPath)], List.isPrefixOf d ["d", "a"] = true) ∧
     delete_locals_hist (FS.mk [] [["x"]]) [("/d/a", ["d", "a"])] [["d"]] ["/d/a"] =
       delete_locals_hist (FS.mk [] [["x"]])
         (removeA "/d/a" [("/d/a", ["d", "a"])]) [["d"]] []) ∧
    (("/d/" : Href) ≠ "/d/a" ∧
     (["d"] : FsPath) ∈ (FS.mk [["d"]] [["d", "a"]]).dirs ∧
     ((delete_locals_hist (FS.mk [["d"]] [["d", "a"]])
        [("/d/", ["d"]), ("/d/a", ["d"] ++ ["a"])] [] ["/d/", "/d/a"]).err = none ∧
      (delete_locals_hist (FS.mk [["d"]] [["d", "a"]])
        [("/d/", ["d"]), ("/d/a", ["d"] ++ ["a"])] [] ["/d/", "/d/a"]).manifest = [] ∧
      (["d"] ++ ["a"]) ∉ (delete_locals_hist (FS.mk [["d"]] [["d", "a"]])
        [("/d/", ["d"]), ("/d/a", ["d"] ++ ["a"])] [] ["/d/", "/d/a"]).removedFiles)) ∧
    (("/d/" : Href) ≠ "/d/a" ∧
     (["d"] : FsPath) ∈ (FS.mk [["d"]] [["d", "a"]]).dirs ∧
     ((delete_locals (FS.mk [["d"]] [["d", "a"]])
        [("/d/", ⟨["d"], true, none⟩),
          ("/d/a", ⟨["d"] ++ ["a"], false, some 7⟩)] ["/d/", "/d/a"]).err = none ∧
      (delete_locals (FS.mk [["d"]] [["d", "a"]])
        [("/d/", ⟨["d"], true, none⟩),
          ("/d/a", ⟨["d"] ++ ["a"], false, some 7⟩)] ["/d/", "/d/a"]).manifest = [] ∧
      (["d"] ++ ["a"]) ∉ (delete_locals (FS.mk [["d"]] [["d", "a"]])
        [("/d/", ⟨["d"], true, none⟩),
          ("/d/a", ⟨["d"] ++ ["a"], false, some 7⟩)] ["/d/", "/d/a"]).removedFiles)) := by
  refine ⟨⟨by decide, by decide, by decide, ?_⟩,
    ⟨by decide, by decide, by decide, ?_⟩,
    ⟨by decide, by decide, ?_⟩, ⟨by decide, by decide, ?_⟩⟩
  · exact claim_C1_no_double_delete.1 (FS.mk [["d"]] [["d", "a"]]) (FS.mk [] [])
      [("/d/", ["d"])] [] "/d/" [] ["d"] (by decide) (by decide) (by decide)
  · exact claim_C1_no_double_delete.2.1 (FS.mk [] [["x"]])
      [("/d/a", ["d", "a"])] [["d"]] "/d/a" [] ["d", "a"]
      (by decide) (by decide) (by decide)
  · exact claim_C1_no_double_delete.2.2.1 (FS.mk [["d"]] [["d", "a"]])
      ["d"] "a" "/d/" "/d/a" (by decide) (by decide)
  · exact claim_C1_no_double_delete.2.2.2 (FS.mk [["d"]] [["d", "a"]])
      ["d"] "a" "/d/" "/d/a" 7 (by decide) (by decide)

theorem claim_C4_second_pass_idle_witness :
    (([ListEntity.File ⟨"/a", 2⟩].map ListEntity.href).Nodup ∧
     NodupKeys ([] : Manifest) ∧
     reconcile [ListEntity.File ⟨"/a", 2⟩] [] = some [("/a", Status.Server)] ∧
     (apply_sync
       ⟨fun _ => some "", fun _ => .ok [], fun _ _ => .ok (), fun _ => .ok (),
         fun _ => .ok (), fun _ => .ok ()⟩
       ⟨"http://h", "", ["out"], []⟩ "/r/"
       (delete_locals (FS.mk [] []) []
         (files_to_remove [("/a", Status.Server)])).manifest
       (entities_to_download [ListEntity.File ⟨"/a", 2⟩]
         [("/a", Status.Server)])).err = none) ∧
    (∃ v₂, reconcile [ListEntity.File ⟨"/a", 2⟩]
        (apply_sync
          ⟨fun _ => some "", fun _ => .ok [], fun _ _ => .ok (), fun _ => .ok (),
            fun _ => .ok (), fun _ => .ok ()⟩
          ⟨"http://h", "", ["out"], []⟩ "/r/"
          (delete_locals (FS.mk [] []) []
            (files_to_remove [("/a", Status.Server)])).manifest
          (entities_to_download [ListEntity.File ⟨"/a", 2⟩]
            [("/a", Status.Server)])).manifest = some v₂ ∧
      files_to_remove v₂ = [] ∧
      (∀ fs₂ : FS,
        (delete_locals fs₂ (apply_sync
          ⟨fun _ => some "", fun _ => .ok [], fun _ _ => .ok (), fun _ => .ok (),
            fun _ => .ok (), fun _ => .ok ()⟩
          ⟨"http://h", "", ["out"], []⟩ "/r/"
          (delete_locals (FS.mk [] []) []
            (files_to_remove [("/a", Status.Server)])).manifest
          (entities_to_download [ListEntity.File ⟨"/a", 2⟩]
            [("/a", Status.Server)])).manifest
          (files_to_remove v₂)).removedFiles = [] ∧
        (delete_locals fs₂ (apply_sync
          ⟨fun _ => some "", fun _ => .ok [], fun _ _ => .ok (), fun _ => .ok (),
            fun _ => .ok (), fun _ => .ok ()⟩
          ⟨"http://h", "", ["out"], []⟩ "/r/"
          (delete_locals (FS.mk [] []) []
            (files_to_remove [("/a", Status.Server)])).manifest
          (entities_to_download [ListEntity.File ⟨"/a", 2⟩]
            [("/a", Status.Server)])).manifest
          (files_to_remove v₂)).removedDirs = []) ∧
      (apply_sync
        ⟨fun _ => some "", fun _ => .ok [], fun _ _ => .ok (), fun _ => .ok (),
          fun _ => .ok (), fun _ => .ok ()⟩
        ⟨"http://h", "", ["out"], []⟩ "/r/"
        (apply_sync
          ⟨fun _ => some "", fun _ => .ok [], fun _ _ => .ok (), fun _ => .ok (),
            fun _ => .ok (), fun _ => .ok ()⟩
          ⟨"http://h", "", ["out"], []⟩ "/r/"
          (delete_locals (FS.mk [] []) []
            (files_to_remove [("/a", Status.Server)])).manifest
          (entities_to_download [ListEntity.File ⟨"/a", 2⟩]
            [("/a", Status.Server)])).manifest
        (entities_to_download [ListEntity.File ⟨"/a", 2⟩] v₂)).downloads = []) := by
  refine ⟨⟨by decide, by decide, by decide, by decide⟩, ?_⟩
  exact claim_C4_second_pass_idle
    ⟨fun _ => some "", fun _ => .ok [], fun _ _ => .ok (), fun _ => .ok (),
      fun _ => .ok (), fun _ => .ok ()⟩
    ⟨fun _ => some "", fun _ => .ok [], fun _ _ => .ok (), fun _ => .ok (),
      fun _ => .ok (), fun _ => .ok ()⟩
    ⟨"http://h", "", ["out"], []⟩ "/r/" (FS.mk [] []) []
    [ListEntity.File ⟨"/a", 2⟩] [("/a", Status.Server)]
    (by decide) (by decide) (by decide) (by decide)

end NubeSync
